import Mathlib

/-!
# hmwrk: word counting over HTML token streams, the result store, the crawl

A shallow embedding of `main.go` and `cache.go`.

* A Go `string` is read as its sequence of runes (`List Char`); a byte that is
  not valid UTF-8 decodes to U+FFFD in every function used here, which is neither
  a letter, a number nor white space.
* `map[string]int` and `map[string]map[string]int` are finite maps (`Finmap`).
  A count is a natural number: one increment per input word cannot reach `2^63`.
* The tokenizer of `golang.org/x/net/html` is outside the repository. A run of it
  is the finite list of tokens it yields before it starts answering `ErrorToken`
  for ever; `countWords` is embedded over that list.
* The tables of Go's `unicode` package are outside the repository. Their ASCII
  part is written out; the part above ASCII is a parameter (`UnicodeTables`).
-/

namespace Hmwrk

/-- A Go string, as the sequence of its runes. -/
abbrev GoString := List Char

/-! ## The `unicode` and `strings` functions the program calls -/

/-- The part of Go's `unicode` tables above ASCII: which runes are letters
(category L), numbers (category N), white space, and the lower-case mapping. -/
structure UnicodeTables where
  letter : Char → Bool
  number : Char → Bool
  space : Char → Bool
  lower : Char → Char

/-- Tables that know nothing above ASCII: no letter, number or space there and
no case mapping. -/
def asciiOnly : UnicodeTables :=
  { letter := fun _ => false, number := fun _ => false, space := fun _ => false,
    lower := fun c => c }

/-- Test `r < utf8.RuneSelf`. -/
def isASCII (r : Char) : Bool := decide (r.toNat < 128)

/-- Go `unicode.IsLetter`. -/
def IsLetter (U : UnicodeTables) (r : Char) : Bool :=
  if isASCII r then r.isAlpha else U.letter r

/-- Go `unicode.IsNumber`. -/
def IsNumber (U : UnicodeTables) (r : Char) : Bool :=
  if isASCII r then r.isDigit else U.number r

/-- Go `unicode.IsSpace`; in ASCII the space characters are
`'\t'`, `'\n'`, `'\v'`, `'\f'`, `'\r'` and `' '`. -/
def IsSpace (U : UnicodeTables) (r : Char) : Bool :=
  if isASCII r then decide (r.toNat = 32 ∨ (9 ≤ r.toNat ∧ r.toNat ≤ 13)) else U.space r

/-- Go `unicode.ToLower`. -/
def ToLowerRune (U : UnicodeTables) (r : Char) : Char :=
  if isASCII r then r.toLower else U.lower r

/-- Go `strings.ToLower`: the lower-case mapping applied rune by rune. -/
def ToLower (U : UnicodeTables) (s : GoString) : GoString :=
  s.map (ToLowerRune U)

/-- The scan of Go `strings.Fields`: `cur` is the field being read. -/
def fieldsFrom (U : UnicodeTables) (cur : GoString) : GoString → List GoString
  | [] => if cur.isEmpty then [] else [cur]
  | c :: cs =>
    if IsSpace U c then
      (if cur.isEmpty then fieldsFrom U [] cs else cur :: fieldsFrom U [] cs)
    else fieldsFrom U (cur ++ [c]) cs

/-- Go `strings.Fields`: the maximal runs of runes that are not white space. -/
def Fields (U : UnicodeTables) (s : GoString) : List GoString :=
  fieldsFrom U [] s

/-- Go `strings.TrimFunc`: drop the leading and the trailing runes satisfying `f`. -/
def TrimFunc (s : GoString) (f : Char → Bool) : GoString :=
  (s.dropWhile f).rdropWhile f

/-! ## `main.go`: the word filter -/

/-- Source `trimNonAlphanumeric`. -/
def trimNonAlphanumeric (U : UnicodeTables) (s : GoString) : GoString :=
  TrimFunc s (fun r => !IsLetter U r && !IsNumber U r)

/-- Source `isAlphabetical`. -/
def isAlphabetical (U : UnicodeTables) (s : GoString) : Bool :=
  s.all (IsLetter U)

/-- A `map[string]int` of word counts. -/
abbrev WordFrequency := Finmap (fun _ : GoString => Nat)

/-- Statement `wordCounts[word]++`: a missing key reads as `0`. -/
def incr (wordCounts : WordFrequency) (word : GoString) : WordFrequency :=
  Finmap.insert word ((wordCounts.lookup word).getD 0 + 1) wordCounts

/-- The body of the `for _, word := range words` loop of `countWords`. -/
def countWord (U : UnicodeTables) (wordCounts : WordFrequency) (word : GoString) :
    WordFrequency :=
  let word := ToLower U word
  let word := trimNonAlphanumeric U word
  if word ≠ [] && isAlphabetical U word then incr wordCounts word else wordCounts

/-- The `for _, word := range words` loop of `countWords` on the text of one token. -/
def countText (U : UnicodeTables) (wordCounts : WordFrequency) (text : GoString) :
    WordFrequency :=
  (Fields U text).foldl (countWord U) wordCounts

/-! ## `main.go`: the allow-list and the token loop -/

/-- The names of `allowedTags`, in source order. -/
def allowedTagNames : List GoString :=
  ["h1", "h2", "h3", "h4", "h5", "h6", "p", "li", "dt", "dd", "a", "strong", "em", "b",
   "i", "blockquote", "figcaption", "td", "th", "dfn", "address", "time", "cite", "abbr",
   "details", "summary", "figure", "span"].map String.toList

/-- Source `allowedTags[name]`: `true` for the listed names, `false` (the zero
value) for a missing key. -/
def allowedTags (name : GoString) : Bool := decide (name ∈ allowedTagNames)

/-- A token of the `html` tokenizer other than `ErrorToken`, with what
`TagName()` (tags) or `Text()` (the others) returns for it. -/
inductive Token where
  | Text (text : GoString)
  | StartTag (tagName : GoString)
  | EndTag (tagName : GoString)
  | SelfClosingTag (tagName : GoString)
  | Comment (text : GoString)
  | Doctype (text : GoString)
  deriving DecidableEq, Repr

/-- Guard of the tag branch: the token is a `StartTagToken` or an `EndTagToken`
and `allowedTags[string(tagName)]` holds. -/
def Token.isAllowedTag : Token → Bool
  | Token.StartTag n => allowedTags n
  | Token.EndTag n => allowedTags n
  | _ => false

/-- The `for` loop of `countWords`. The list is what the tokenizer still has to
yield; on the empty list `Next()` answers `ErrorToken`. After an allowed tag the
loop calls `Next()` once more: that token is consumed whatever its type, and
counted only when it is a text token. -/
def countWordsLoop (U : UnicodeTables) : List Token → WordFrequency → WordFrequency
  | [], wordCounts => wordCounts
  | tok :: rest, wordCounts =>
    if tok.isAllowedTag then
      match rest with
      | [] => wordCounts
      | Token.Text text :: rest2 => countWordsLoop U rest2 (countText U wordCounts text)
      | _ :: rest2 => countWordsLoop U rest2 wordCounts
    else countWordsLoop U rest wordCounts

/-- Source `countWords`, on the token stream of its reader. -/
def countWords (U : UnicodeTables) (r : List Token) : WordFrequency :=
  countWordsLoop U r ∅

/-! ## `cache.go`: the result store -/

/-- A value of type `map[string]int`: `none` is the nil map. -/
abbrev MapValue := Option WordFrequency

/-- Source `type cache map[string]map[string]int`, as a store: a map that has
been made, as `NewInMemoryCache` makes it, the only place where the program
makes one. -/
abbrev cache := Finmap (fun _ : GoString => MapValue)

/-- Source `NewInMemoryCache`: the empty map `cache{}`. -/
def NewInMemoryCache : cache := ∅

/-- Source `cache.Get`. -/
def cache.Get (c : cache) (key : GoString) : MapValue × Bool :=
  match c.lookup key with
  | some v => (v, true)
  | none => (none, false)

/-- Source `cache.Exists`. -/
def cache.Exists (c : cache) (key : GoString) : Bool :=
  (c.lookup key).isSome

/-- Source `cache.Set`: `c[key] = value`, as the map after the assignment. -/
def cache.Set (c : cache) (key : GoString) (value : MapValue) : cache :=
  Finmap.insert key value c

/-! ## `main.go`: `fetch` -/

/-- A Go `error`, by its message. -/
abbrev GoError := GoString

/-- The fields of `http.Response` the program can read. The body is given by the
tokens the tokenizer reads from it. -/
structure Response where
  Body : List Token
  StatusCode : Nat

/-- What `http.Get` returns, `(*http.Response, error)`: the pointer is `none`
when it is nil, the error is `none` when it is nil. -/
structure GetResult where
  r : Option Response
  err : Option GoError

/-- How a Go call ends: it returns a value or it panics. -/
inductive Outcome (α : Type) where
  | returned (a : α)
  | panicked (msg : GoString)

/-- Source `fetch`: `r, err := http.Get(url); return r.Body, err`. The selector
`r.Body` is evaluated whatever `err` is, and panics on a nil `r`. -/
def fetch (httpGet : GoString → GetResult) (url : GoString) :
    Outcome (List Token × Option GoError) :=
  match httpGet url with
  | ⟨none, _⟩ => Outcome.panicked "runtime error: invalid memory address or nil pointer dereference".toList
  | ⟨some r, err⟩ => Outcome.returned (r.Body, err)

/-! ## `main.go`: the crawl -/

/-- Source `scrapResult`. -/
structure scrapResult where
  url : GoString
  words : MapValue

/-- What `main` takes from outside: the URL list (`input`, a literal in the
source, whose comment says it stands for a list received from a caller), the
number `runtime.NumCPU()` (at least 1), the network behind `http.Get`, and the
`unicode` tables. -/
structure Env where
  input : List GoString
  NumCPU : Nat
  httpGet : GoString → GetResult
  unicode : UnicodeTables

/-- Source `parallelLimit = runtime.NumCPU()`. -/
def parallelLimit (e : Env) : Nat := e.NumCPU

/-- Capacity of `sem := make(chan struct{}, parallelLimit-1)`. -/
def semCap (e : Env) : Nat := parallelLimit e - 1

/-- Where a goroutine of `main` stands. -/
inductive Task where
  /-- Before `sem <- struct{}{}`. -/
  | acquire
  /-- After the send on `sem`, before `fetch(input[j])`. -/
  | fetching
  /-- Branch `err != nil`, before the log line and `<-sem`. -/
  | failed (err : GoError)
  /-- Branch `err == nil`, before `countWords(body)` and the send on `results`. -/
  | counting (body : List Token)
  /-- After the send on `results`, before `<-sem`. -/
  | releasing
  /-- Ended by the panic of `fetch`: the deferred `wg.Done()` has run, the
  receive `<-sem` never will. -/
  | crashed
  /-- Returned; `wg.Done()` has run. -/
  | done
  deriving DecidableEq

/-- Whether the unit the goroutine sent on `sem` is still there: it has sent and
has not received. -/
def Task.holds : Task → Bool
  | Task.fetching => true
  | Task.failed _ => true
  | Task.counting _ => true
  | Task.releasing => true
  | Task.crashed => true
  | _ => false

/-- The shared state of the goroutines of `main`. -/
structure State where
  tasks : List Task
  /-- Number of elements in the buffer of `sem`. -/
  sem : Nat
  /-- Buffer of `results`, oldest first. -/
  results : List scrapResult
  /-- Counter of the `sync.WaitGroup`. -/
  wg : Nat
  /-- Lines written by `slog.Default().Error`. -/
  log : List GoError
  /-- A goroutine has panicked and nothing recovers: the runtime is ending the
  process with that panic. Until it has, the other goroutines may still run. -/
  panicked : Bool

/-- State after the `for i := range input` loop has started the goroutines. -/
def State.init (e : Env) : State :=
  { tasks := e.input.map (fun _ => Task.acquire), sem := 0, results := [],
    wg := e.input.length, log := [], panicked := false }

/-- A scheduling decision: goroutine `j` runs to its next channel operation, or,
on an unbuffered `sem`, the sender `j` and the receiver `k` meet. -/
inductive Move where
  | run (j : Nat)
  | handoff (j k : Nat)

/-- The goroutine body of `main`, one scheduling decision at a time; `none` when
the decision cannot be taken (the goroutine is blocked or has ended). A send on
`sem` needs room in the buffer, a receive needs an element; with capacity 0 both
need a partner (`Move.handoff`). A panic in `fetch` runs the deferred
`wg.Done()` and ends the goroutine. -/
def step (e : Env) (s : State) : Move → Option State
  | Move.run j =>
    match s.tasks[j]? with
    | none => none
    | some Task.acquire =>
      if s.sem < semCap e then
        some { s with tasks := s.tasks.set j Task.fetching, sem := s.sem + 1 }
      else none
    | some Task.fetching =>
      match fetch e.httpGet (e.input.getD j []) with
      | Outcome.panicked _ =>
        some { s with tasks := s.tasks.set j Task.crashed, wg := s.wg - 1, panicked := true }
      | Outcome.returned (_, some err) =>
        some { s with tasks := s.tasks.set j (Task.failed err) }
      | Outcome.returned (body, none) =>
        some { s with tasks := s.tasks.set j (Task.counting body) }
    | some (Task.failed err) =>
      if 0 < s.sem then
        some { s with tasks := s.tasks.set j Task.done, sem := s.sem - 1,
                      log := s.log ++ [err], wg := s.wg - 1 }
      else none
    | some (Task.counting body) =>
      if s.results.length < e.input.length then
        some { s with tasks := s.tasks.set j Task.releasing,
                      results := s.results ++
                        [{ url := e.input.getD j [], words := some (countWords e.unicode body) }] }
      else none
    | some Task.releasing =>
      if 0 < s.sem then
        some { s with tasks := s.tasks.set j Task.done, sem := s.sem - 1, wg := s.wg - 1 }
      else none
    | some Task.crashed => none
    | some Task.done => none
  | Move.handoff j k =>
    if semCap e != 0 then none else
    match s.tasks[j]?, s.tasks[k]? with
    | some Task.acquire, some (Task.failed err) =>
      some { s with tasks := (s.tasks.set j Task.fetching).set k Task.done,
                    log := s.log ++ [err], wg := s.wg - 1 }
    | some Task.acquire, some Task.releasing =>
      some { s with tasks := (s.tasks.set j Task.fetching).set k Task.done, wg := s.wg - 1 }
    | _, _ => none

/-- The transitions of `step`, one constructor per branch. -/
inductive Step (e : Env) : State → State → Prop where
  | acquire (s : State) (j : Nat)
      (hj : s.tasks[j]? = some Task.acquire) (hsem : s.sem < semCap e) :
      Step e s { s with tasks := s.tasks.set j Task.fetching, sem := s.sem + 1 }
  | fetchPanic (s : State) (j : Nat) (msg : GoString)
      (hj : s.tasks[j]? = some Task.fetching)
      (hf : fetch e.httpGet (e.input.getD j []) = Outcome.panicked msg) :
      Step e s { s with tasks := s.tasks.set j Task.crashed, wg := s.wg - 1,
                        panicked := true }
  | fetchErr (s : State) (j : Nat) (body : List Token) (err : GoError)
      (hj : s.tasks[j]? = some Task.fetching)
      (hf : fetch e.httpGet (e.input.getD j []) = Outcome.returned (body, some err)) :
      Step e s { s with tasks := s.tasks.set j (Task.failed err) }
  | fetchOk (s : State) (j : Nat) (body : List Token)
      (hj : s.tasks[j]? = some Task.fetching)
      (hf : fetch e.httpGet (e.input.getD j []) = Outcome.returned (body, none)) :
      Step e s { s with tasks := s.tasks.set j (Task.counting body) }
  | logRelease (s : State) (j : Nat) (err : GoError)
      (hj : s.tasks[j]? = some (Task.failed err)) (hsem : 0 < s.sem) :
      Step e s { s with tasks := s.tasks.set j Task.done, sem := s.sem - 1,
                        log := s.log ++ [err], wg := s.wg - 1 }
  | emit (s : State) (j : Nat) (body : List Token)
      (hj : s.tasks[j]? = some (Task.counting body))
      (hroom : s.results.length < e.input.length) :
      Step e s { s with tasks := s.tasks.set j Task.releasing,
                        results := s.results ++
                          [{ url := e.input.getD j [],
                             words := some (countWords e.unicode body) }] }
  | release (s : State) (j : Nat)
      (hj : s.tasks[j]? = some Task.releasing) (hsem : 0 < s.sem) :
      Step e s { s with tasks := s.tasks.set j Task.done, sem := s.sem - 1, wg := s.wg - 1 }
  | handoffLog (s : State) (j k : Nat) (err : GoError)
      (hcap : semCap e = 0) (hj : s.tasks[j]? = some Task.acquire)
      (hk : s.tasks[k]? = some (Task.failed err)) :
      Step e s { s with tasks := (s.tasks.set j Task.fetching).set k Task.done,
                        log := s.log ++ [err], wg := s.wg - 1 }
  | handoffRelease (s : State) (j k : Nat)
      (hcap : semCap e = 0) (hj : s.tasks[j]? = some Task.acquire)
      (hk : s.tasks[k]? = some Task.releasing) :
      Step e s { s with tasks := (s.tasks.set j Task.fetching).set k Task.done,
                        wg := s.wg - 1 }

/-- A schedule carried out from `s`; `none` when one of its decisions cannot be taken. -/
def runMoves (e : Env) : State → List Move → Option State
  | s, [] => some s
  | s, m :: ms => (step e s m).bind (fun s2 => runMoves e s2 ms)

/-- The states the goroutines can reach from the start. -/
def Reachable (e : Env) (s : State) : Prop :=
  ∃ ms, runMoves e (State.init e) ms = some s

/-- No scheduling decision can be taken in `s`. -/
def Stuck (e : Env) (s : State) : Prop := ∀ m, step e s m = none

/-- The `for r := range results` loop of `main`: one `cache.Set` per result, in
the order of the channel. -/
def drain (c : cache) (results : List scrapResult) : cache :=
  results.foldl (fun c r => cache.Set c r.url r.words) c

/-- The keys of the `cache.Set` calls of the drain loop, in order. -/
def setCalls (results : List scrapResult) : List GoString :=
  results.map (fun r => r.url)

/-- Number of `cache.Set` calls of the drain loop whose key is `u`. -/
def setCount (results : List scrapResult) (u : GoString) : Nat :=
  (setCalls results).countP (fun k => decide (k = u))

/-- The tail of `main` from `wg.Wait()` on: the call returns once the counter is
zero, whoever brought it there (the deferred `wg.Done()` of a panicking
goroutine does); `main` then closes `results`, drains it into the new cache and
prints the cache. The value is the cache after the drain loop. -/
def afterWait (s : State) : Option cache :=
  if s.wg = 0 then some (drain NewInMemoryCache s.results) else none

/-- Source `main` under a schedule of its goroutines: the cache after its drain
loop; `none` when it is still in `wg.Wait()`. -/
def main (e : Env) (ms : List Move) : Option cache :=
  (runMoves e (State.init e) ms).bind afterWait

/-! ## Notions of the specification -/

/-- Go `m[w]` on a `map[string]int`: the count of `w`, `0` for a missing key. -/
def count (m : WordFrequency) (w : GoString) : Nat := (m.lookup w).getD 0

/-- The word a candidate field normalizes to: lower-cased, trimmed, and kept
only when what remains is non-empty and letters-only. -/
def normalize (U : UnicodeTables) (field : GoString) : Option GoString :=
  let w := trimNonAlphanumeric U (ToLower U field)
  if w ≠ [] && isAlphabetical U w then some w else none

/-- Number of whitespace-separated fields of `text` that normalize to `w`. -/
def fieldCount (U : UnicodeTables) (text w : GoString) : Nat :=
  (Fields U text).countP (fun f => decide (normalize U f = some w))

/-- Every key of the map is a normalized word (non-empty, letters only, its own
lower case) and every count is at least 1. -/
def Normalized (U : UnicodeTables) (m : WordFrequency) : Prop :=
  ∀ (k : GoString) (n : Nat), m.lookup k = some n →
    k ≠ [] ∧ isAlphabetical U k = true ∧ ToLower U k = k ∧ 1 ≤ n

/-- The HTML void elements: their start tag opens nothing. -/
def voidElements : List GoString :=
  ["area", "base", "br", "col", "embed", "hr", "img", "input", "link", "meta", "source",
   "track", "wbr"].map String.toList

/-- An end tag `n` met with the open elements `stack` (innermost first): it
closes the elements up to and including the nearest `n`, and nothing when no
`n` is open. -/
def closeElement (n : GoString) (stack : List GoString) : List GoString :=
  if n ∈ stack then (stack.dropWhile (fun m => decide (m ≠ n))).tail else stack

/-- The open elements after one more token. -/
def openStep (stack : List GoString) : Token → List GoString
  | Token.StartTag n => if n ∈ voidElements then stack else n :: stack
  | Token.EndTag n => closeElement n stack
  | _ => stack

/-- The elements open after the tokens `toks`, innermost first. -/
def openElements (toks : List Token) : List GoString :=
  toks.foldl openStep []

/-- The innermost element enclosing token `i` of the stream. -/
def enclosing (toks : List Token) (i : Nat) : Option GoString :=
  (openElements (toks.take i)).head?

/-- The stream with the content of token `i` made empty. -/
def blankText (toks : List Token) (i : Nat) : List Token :=
  toks.set i (Token.Text [])

/-- Whether token `i` comes directly after an end tag of the allow-list. -/
def followsAllowedEndTag (toks : List Token) : Nat → Bool
  | 0 => false
  | j + 1 =>
    match toks[j]? with
    | some (Token.EndTag m) => allowedTags m
    | _ => false

/-- What the results channel holds: the URLs of distinct goroutines that have
passed their send on `results`, one entry each, in the order of the sends. -/
def Emitted (e : Env) (s : State) : Prop :=
  s.tasks.length = e.input.length ∧
    ∃ js : List Nat, js.Nodup ∧
      (∀ j ∈ js, s.tasks[j]? = some Task.releasing ∨ s.tasks[j]? = some Task.done) ∧
      setCalls s.results = js.map (fun j => e.input.getD j [])

/-- While no `http.Get` gives a response: nothing is logged, nothing is sent on
`results`, every goroutine is before its send, before its `fetch` or ended by
the panic, and the counter of the wait group is still the number of URLs unless
a panic is ending the process. -/
def NoneReturned (e : Env) (s : State) : Prop :=
  s.log = [] ∧ s.results = [] ∧ (s.panicked = true ∨ s.wg = e.input.length) ∧
    ∀ (j : Nat) (pc : Task), s.tasks[j]? = some pc →
      pc = Task.acquire ∨ pc = Task.fetching ∨ pc = Task.crashed

/-! ## Sample inputs -/

/-- Markup `<div><b>x</b>The Cat</div>`. -/
def divAfterBold : List Token :=
  [Token.StartTag "div".toList, Token.StartTag "b".toList, Token.Text "x".toList,
   Token.EndTag "b".toList, Token.Text "The Cat".toList, Token.EndTag "div".toList]

/-- Markup `<div>The Cat<b>x</b></div>`. -/
def divBeforeBold : List Token :=
  [Token.StartTag "div".toList, Token.Text "The Cat".toList, Token.StartTag "b".toList,
   Token.Text "x".toList, Token.EndTag "b".toList, Token.EndTag "div".toList]

/-- Markup `<p><b>bold</b></p>`. -/
def boldInParagraph : List Token :=
  [Token.StartTag "p".toList, Token.StartTag "b".toList, Token.Text "bold".toList,
   Token.EndTag "b".toList, Token.EndTag "p".toList]

/-- The `input` literal of `main`. -/
def sourceInput : List GoString :=
  ["https://www.github.com", "https://www.gitlab.com"].map String.toList

/-- A network on which every `http.Get` fails: no response, a non-nil error. -/
def offline : GoString → GetResult :=
  fun _ => { r := none, err := some "dial tcp: lookup failed: no such host".toList }

/-- A page that answers every `http.Get`: status 200 and the body
`<p>The Cat's Hat!!</p>`. -/
def online : GoString → GetResult :=
  fun _ =>
    { r := some { Body := [Token.StartTag "p".toList, Token.Text "The Cat's Hat!!".toList,
                           Token.EndTag "p".toList],
                  StatusCode := 200 },
      err := none }

/-- The crawl of the source's two URLs on 4 CPUs with the network down. -/
def offlineEnv : Env :=
  { input := sourceInput, NumCPU := 4, httpGet := offline, unicode := asciiOnly }

/-- The crawl of one URL on 4 CPUs with the network down. -/
def oneOfflineEnv : Env :=
  { input := ["https://www.github.com".toList], NumCPU := 4, httpGet := offline,
    unicode := asciiOnly }

/-- The crawl of the source's two URLs on a machine with one CPU. -/
def oneCpuEnv : Env :=
  { input := sourceInput, NumCPU := 1, httpGet := online, unicode := asciiOnly }

/-- The crawl of the same URL given twice, on 4 CPUs, every fetch succeeding. -/
def dupEnv : Env :=
  { input := ["https://www.github.com".toList, "https://www.github.com".toList],
    NumCPU := 4, httpGet := online, unicode := asciiOnly }

/-- The crawl of the source's two URLs on 4 CPUs, every fetch succeeding. -/
def onlineEnv : Env :=
  { input := sourceInput, NumCPU := 4, httpGet := online, unicode := asciiOnly }

/-- Goroutine 0 runs to its end, then goroutine 1. -/
def inTurn : List Move :=
  [Move.run 0, Move.run 0, Move.run 0, Move.run 0,
   Move.run 1, Move.run 1, Move.run 1, Move.run 1]

/-- The state of `offlineEnv` once goroutine 0 has acquired its unit and called
`fetch`. -/
def offlineCrash : State :=
  { tasks := [Task.crashed, Task.acquire], sem := 1, results := [], wg := 1, log := [],
    panicked := true }

/-- The state of `onlineEnv` after the schedule `inTurn`: both goroutines have
returned and `results` holds their two results. -/
def onlineDone : State :=
  { tasks := [Task.done, Task.done], sem := 0,
    results :=
      [{ url := "https://www.github.com".toList,
         words := some (countWords asciiOnly
           [Token.StartTag "p".toList, Token.Text "The Cat's Hat!!".toList,
            Token.EndTag "p".toList]) },
       { url := "https://www.gitlab.com".toList,
         words := some (countWords asciiOnly
           [Token.StartTag "p".toList, Token.Text "The Cat's Hat!!".toList,
            Token.EndTag "p".toList]) }],
    wg := 0, log := [], panicked := false }

/-- A result for the first URL of the source. -/
def githubResult : scrapResult :=
  { url := "https://www.github.com".toList,
    words := some (Finmap.insert "hat".toList 1 (Finmap.insert "the".toList 1 ∅)) }

/-- A result for the second URL of the source. -/
def gitlabResult : scrapResult :=
  { url := "https://www.gitlab.com".toList, words := some ∅ }

/-! ## The token loop, iteration by iteration -/

/-- Go `tokenizer.Next()` on what the tokenizer has still to yield: the token
read and what is left; `none` is `ErrorToken`, which every later call answers
again. -/
def Next : List Token → Option Token × List Token
  | [] => (none, [])
  | tok :: rest => (some tok, rest)

/-- The `for` loop of `countWords` run for at most `fuel` iterations: the map
returned when the loop returns within them, `none` when it is still running. -/
def countWordsFuel (U : UnicodeTables) :
    Nat → List Token → WordFrequency → Option WordFrequency
  | 0, _, _ => none
  | fuel + 1, z, wordCounts =>
    match Next z with
    | (none, _) => some wordCounts
    | (some tok, z1) =>
      if tok.isAllowedTag then
        match Next z1 with
        | (some (Token.Text text), z2) =>
          countWordsFuel U fuel z2 (countText U wordCounts text)
        | (_, z2) => countWordsFuel U fuel z2 wordCounts
      else countWordsFuel U fuel z1 wordCounts

/-! ## The package variable `allowedTags` as state -/

/-- A value of the package variable `allowedTags`, a map that code of the
package could assign to. -/
abbrev TagTable := Finmap (fun _ : GoString => Bool)

/-- The value `allowedTags` is initialized with: `true` under each listed name. -/
def allowedTagsInit : TagTable :=
  allowedTagNames.foldl (fun table name => Finmap.insert name true table) ∅

/-- Go `table[name]`: the value stored, `false` for a missing key. -/
def TagTable.get (table : TagTable) (name : GoString) : Bool :=
  (table.lookup name).getD false

/-- Guard of the tag branch, read from the variable. -/
def Token.isAllowedIn (table : TagTable) : Token → Bool
  | Token.StartTag n => table.get n
  | Token.EndTag n => table.get n
  | _ => false

/-- The `for` loop of `countWords` with the package variable made explicit: the
loop reads `table` and has no assignment to it; the second component is the
variable when the loop returns. -/
def countWordsLoopIn (U : UnicodeTables) (table : TagTable) :
    List Token → WordFrequency → WordFrequency × TagTable
  | [], wordCounts => (wordCounts, table)
  | tok :: rest, wordCounts =>
    if tok.isAllowedIn table then
      match rest with
      | [] => (wordCounts, table)
      | Token.Text text :: rest2 =>
        countWordsLoopIn U table rest2 (countText U wordCounts text)
      | _ :: rest2 => countWordsLoopIn U table rest2 wordCounts
    else countWordsLoopIn U table rest wordCounts

/-- Source `countWords` run with the package variable at `table`: the map
returned and the variable after the call. -/
def countWordsIn (U : UnicodeTables) (table : TagTable) (r : List Token) :
    WordFrequency × TagTable :=
  countWordsLoopIn U table r ∅

/-- Markup `hello<br/><div>The Cat</div><!--p-->`: no tag of the allow-list. -/
def noAllowedTag : List Token :=
  [Token.Text "hello".toList, Token.SelfClosingTag "br".toList, Token.StartTag "div".toList,
   Token.Text "The Cat".toList, Token.EndTag "div".toList, Token.Comment "p".toList]

/-- Whether a candidate field passes the filter of `countWords`: it normalizes
to a word. -/
def passes (U : UnicodeTables) (field : GoString) : Bool :=
  (normalize U field).isSome

/-- The sum of all counts of a map. -/
def total (m : WordFrequency) : Nat :=
  m.keys.sum (fun k => count m k)

/-! ## Notions for the semaphore and the fetch outcomes -/

/-- Whether the goroutine has still to run its deferred `wg.Done()`. -/
def Task.pending : Task → Bool
  | Task.done => false
  | Task.crashed => false
  | _ => true

/-- The accounts of `sem` and of the wait group: the buffer of `sem` holds one
element per goroutine that has sent and not received, never more than its
capacity; the counter of the wait group is the number of goroutines whose
`wg.Done()` has not run; and no goroutine has ended by a panic unless a panic is
ending the process. -/
def Budget (e : Env) (s : State) : Prop :=
  s.sem = s.tasks.countP Task.holds ∧ s.sem ≤ semCap e ∧
    s.wg = s.tasks.countP Task.pending ∧
    (s.panicked = false → ∀ t ∈ s.tasks, t ≠ Task.crashed)

/-- Whether the move `m`, taken in `s`, has goroutine `j` execute its send
`sem <- struct{}{}`. -/
def sendsOn (s : State) (j : Nat) : Move → Bool
  | Move.run i => decide (i = j) && decide (s.tasks[i]? = some Task.acquire)
  | Move.handoff i _ => decide (i = j)

/-- Whether the move `m`, taken in `s`, has goroutine `j` execute a receive
`<-sem`. -/
def receivesOn (s : State) (j : Nat) : Move → Bool
  | Move.run i =>
    decide (i = j) &&
      (match s.tasks[i]? with
       | some (Task.failed _) => true
       | some Task.releasing => true
       | _ => false)
  | Move.handoff _ k => decide (k = j)

/-- Number of sends on `sem` goroutine `j` executes along a schedule. -/
def sendCount (e : Env) (j : Nat) : State → List Move → Nat
  | _, [] => 0
  | s, m :: ms =>
    match step e s m with
    | none => 0
    | some s2 => (if sendsOn s j m then 1 else 0) + sendCount e j s2 ms

/-- Number of receives from `sem` goroutine `j` executes along a schedule. -/
def receiveCount (e : Env) (j : Nat) : State → List Move → Nat
  | _, [] => 0
  | s, m :: ms =>
    match step e s m with
    | none => 0
    | some s2 => (if receivesOn s j m then 1 else 0) + receiveCount e j s2 ms

/-- Sends on `sem` behind a goroutine at this place: none before the send, one
after it. -/
def hasSent : Option Task → Nat
  | none => 0
  | some Task.acquire => 0
  | some _ => 1

/-- Receives from `sem` behind a goroutine at this place: one once it has
returned, none before. -/
def hasReceived : Option Task → Nat
  | some Task.done => 1
  | _ => 0

/-- Every goroutine about to count holds the body its `fetch` returned with a
nil error, and every result on the channel is the word count of such a body,
under the URL fetched. -/
def Fetched (e : Env) (s : State) : Prop :=
  (∀ (j : Nat) (body : List Token), s.tasks[j]? = some (Task.counting body) →
      fetch e.httpGet (e.input.getD j []) = Outcome.returned (body, none)) ∧
    ∀ r ∈ s.results, ∃ body,
      fetch e.httpGet r.url = Outcome.returned (body, none) ∧
        r.words = some (countWords e.unicode body)

/-- A server that answers every `http.Get` with status 404 and the body
`<p>Not Found</p>`, without transport error. -/
def notFound : GoString → GetResult :=
  fun _ =>
    { r := some { Body := [Token.StartTag "p".toList, Token.Text "Not Found".toList,
                           Token.EndTag "p".toList],
                  StatusCode := 404 },
      err := none }

/-- The crawl of one URL that answers 404. -/
def notFoundEnv : Env :=
  { input := ["https://www.github.com".toList], NumCPU := 4, httpGet := notFound,
    unicode := asciiOnly }

/-- A server that redirects for ever: `http.Get` gives up after 10 redirects and
returns the last response together with an error. -/
def redirecting : GoString → GetResult :=
  fun _ =>
    { r := some { Body := [], StatusCode := 302 },
      err := some "Get: stopped after 10 redirects".toList }

/-- The crawl of one URL that redirects for ever. -/
def redirectEnv : Env :=
  { input := ["https://www.github.com".toList], NumCPU := 4, httpGet := redirecting,
    unicode := asciiOnly }

/-- The state of `redirectEnv` once its goroutine has returned. -/
def redirectDone : State :=
  { tasks := [Task.done], sem := 0, results := [], wg := 0,
    log := ["Get: stopped after 10 redirects".toList], panicked := false }

/-- The state of `onlineEnv` once both goroutines have sent on `sem`. -/
def bothFetching : State :=
  { tasks := [Task.fetching, Task.fetching], sem := 2, results := [], wg := 2, log := [],
    panicked := false }

/-! ## Notions for the store after the drain loop -/

/-- Whether the fetch of `u` succeeds: `fetch` returns a body and a nil error. -/
def succeeded (e : Env) (u : GoString) : Bool :=
  match fetch e.httpGet u with
  | Outcome.returned (_, none) => true
  | _ => false

/-- What the place of goroutine `j` says about its URL: a goroutine that ended
by a panic or took the `err != nil` branch had a fetch that did not succeed, one
that has sent its result has its URL on `results`. -/
def SettledAt (e : Env) (results : List scrapResult) (j : Nat) : Task → Prop
  | Task.crashed => succeeded e (e.input.getD j []) = false
  | Task.failed _ => succeeded e (e.input.getD j []) = false
  | Task.releasing => e.input.getD j [] ∈ setCalls results
  | Task.done =>
    e.input.getD j [] ∈ setCalls results ∨ succeeded e (e.input.getD j []) = false
  | _ => True

/-- Every goroutine is settled with the results sent so far. -/
def Settled (e : Env) (s : State) : Prop :=
  ∀ (j : Nat) (pc : Task), s.tasks[j]? = some pc → SettledAt e s.results j pc

/-- Moves a goroutine at this place has still to make at most. -/
def Task.rank : Task → Nat
  | Task.acquire => 4
  | Task.fetching => 3
  | Task.counting _ => 2
  | Task.failed _ => 1
  | Task.releasing => 1
  | Task.crashed => 0
  | Task.done => 0

/-- Moves the goroutines have still to make at most. -/
def remaining (s : State) : Nat :=
  (s.tasks.map Task.rank).sum

/-- The state of `offlineEnv` once both goroutines have acquired and called
`fetch`: both ended by the panic, their two units still in `sem`, the counter of
the wait group at zero. -/
def offlineAllCrashed : State :=
  { tasks := [Task.crashed, Task.crashed], sem := 2, results := [], wg := 0, log := [],
    panicked := true }

/-- Both goroutines of a crawl of two URLs acquire and fetch, one after the
other. -/
def bothFetch : List Move :=
  [Move.run 0, Move.run 0, Move.run 1, Move.run 1]

/-! ## Theorems: the word filter on the sample text -/

theorem lookup_incr_self (m : WordFrequency) (w : GoString) :
    (incr m w).lookup w = some ((m.lookup w).getD 0 + 1) := by
  simp [incr]

theorem lookup_incr_of_ne (m : WordFrequency) {w k : GoString} (h : k ≠ w) :
    (incr m w).lookup k = m.lookup k := by
  simp [incr, Finmap.lookup_insert_of_ne _ h]

theorem countText_cat_hat (U : UnicodeTables) :
    countText U ∅ "The Cat's Hat!!".toList = incr (incr ∅ "the".toList) "hat".toList := by
  rfl

theorem incr_the_hat :
    incr (incr ∅ "the".toList) "hat".toList
      = Finmap.insert "hat".toList 1 (Finmap.insert "the".toList 1 ∅) := by
  apply Finmap.ext_lookup
  intro k
  by_cases hk : k = "hat".toList
  · subst hk
    rw [lookup_incr_self, Finmap.lookup_insert, lookup_incr_of_ne _ (by decide)]
    simp
  · rw [lookup_incr_of_ne _ hk, Finmap.lookup_insert_of_ne _ hk]
    by_cases hk2 : k = "the".toList
    · subst hk2
      rw [lookup_incr_self, Finmap.lookup_insert]
      simp
    · rw [lookup_incr_of_ne _ hk2, Finmap.lookup_insert_of_ne _ hk2]

/-- Claim C1: for every tag name `t` of the allow-list, `countWords` on start tag
`t`, text `The Cat's Hat!!`, end tag `t` returns exactly the map with `the ↦ 1`
and `hat ↦ 1`; the field `Cat's` lower-cases and trims to `cat's`, unchanged by
the trim, and fails the letters-only check. -/
theorem countWords_the_cats_hat (U : UnicodeTables) (t : GoString)
    (ht : allowedTags t = true) :
    countWords U [Token.StartTag t, Token.Text "The Cat's Hat!!".toList, Token.EndTag t]
        = Finmap.insert "hat".toList 1 (Finmap.insert "the".toList 1 ∅)
      ∧ trimNonAlphanumeric U (ToLower U "Cat's".toList) = "cat's".toList
      ∧ trimNonAlphanumeric U "cat's".toList = "cat's".toList
      ∧ isAlphabetical U "cat's".toList = false := by
  refine ⟨?_, rfl, rfl, rfl⟩
  have h1 : countWords U
      [Token.StartTag t, Token.Text "The Cat's Hat!!".toList, Token.EndTag t]
      = countText U ∅ "The Cat's Hat!!".toList := by
    simp [countWords, countWordsLoop, Token.isAllowedTag, ht]
  rw [h1, countText_cat_hat, incr_the_hat]

/-- Claim C1 at the tag `p`. -/
theorem countWords_the_cats_hat_witness :
    allowedTags "p".toList = true ∧
    (countWords asciiOnly
        [Token.StartTag "p".toList, Token.Text "The Cat's Hat!!".toList,
         Token.EndTag "p".toList]
        = Finmap.insert "hat".toList 1 (Finmap.insert "the".toList 1 ∅)
      ∧ trimNonAlphanumeric asciiOnly (ToLower asciiOnly "Cat's".toList) = "cat's".toList
      ∧ trimNonAlphanumeric asciiOnly "cat's".toList = "cat's".toList
      ∧ isAlphabetical asciiOnly "cat's".toList = false) :=
  ⟨by decide, countWords_the_cats_hat asciiOnly "p".toList (by decide)⟩

/-! ## Theorems: which text tokens the loop reads -/

theorem countWordsLoop_skip (U : UnicodeTables) (tok : Token) (rest : List Token)
    (wc : WordFrequency) (h : tok.isAllowedTag = false) :
    countWordsLoop U (tok :: rest) wc = countWordsLoop U rest wc := by
  cases rest with
  | nil => simp [countWordsLoop, h]
  | cons t2 rest2 => cases t2 <;> simp [countWordsLoop, h]

theorem countWordsLoop_allowed_end (U : UnicodeTables) (tok : Token)
    (wc : WordFrequency) (h : tok.isAllowedTag = true) :
    countWordsLoop U [tok] wc = wc := by
  simp [countWordsLoop, h]

theorem countWordsLoop_allowed_text (U : UnicodeTables) (tok : Token) (text : GoString)
    (rest : List Token) (wc : WordFrequency) (h : tok.isAllowedTag = true) :
    countWordsLoop U (tok :: Token.Text text :: rest) wc
      = countWordsLoop U rest (countText U wc text) := by
  simp [countWordsLoop, h]

theorem countWordsLoop_allowed_other (U : UnicodeTables) (tok t2 : Token)
    (rest : List Token) (wc : WordFrequency) (h : tok.isAllowedTag = true)
    (h2 : ∀ text, t2 ≠ Token.Text text) :
    countWordsLoop U (tok :: t2 :: rest) wc = countWordsLoop U rest wc := by
  cases t2 with
  | Text text => exact absurd rfl (h2 text)
  | _ => simp [countWordsLoop, h]

/-- A property of the map of counts kept by the counting of one text token is
kept by the token loop. -/
theorem countWordsLoop_preserves (U : UnicodeTables) (P : WordFrequency → Prop)
    (hP : ∀ wc text, P wc → P (countText U wc text)) :
    ∀ (n : Nat) (toks : List Token) (wc : WordFrequency),
      toks.length ≤ n → P wc → P (countWordsLoop U toks wc) := by
  intro n
  induction n with
  | zero =>
    intro toks wc hlen hwc
    cases toks with
    | nil => simpa [countWordsLoop] using hwc
    | cons tok rest => simp at hlen
  | succ n ih =>
    intro toks wc hlen hwc
    cases toks with
    | nil => simpa [countWordsLoop] using hwc
    | cons tok rest =>
      have hlen2 : rest.length ≤ n := by simpa using hlen
      by_cases hA : tok.isAllowedTag = true
      · cases rest with
        | nil =>
          rw [countWordsLoop_allowed_end U tok wc hA]
          exact hwc
        | cons t2 rest2 =>
          have hlen3 : rest2.length ≤ n := by
            simp only [List.length_cons] at hlen2
            omega
          cases t2 with
          | Text s =>
            rw [countWordsLoop_allowed_text U _ _ _ _ hA]
            exact ih rest2 _ hlen3 (hP wc s hwc)
          | _ =>
            rw [countWordsLoop_allowed_other U _ _ _ _ hA (by intro s; simp)]
            exact ih rest2 _ hlen3 hwc
      · have hA2 : tok.isAllowedTag = false := by simpa using hA
        rw [countWordsLoop_skip U _ _ _ hA2]
        exact ih rest wc hlen2 hwc

/-- A text token that does not come directly after an allowed start or end tag
is never read: the loop gives the same map whatever its content. -/
theorem countWordsLoop_set_text (U : UnicodeTables) :
    ∀ (n : Nat) (toks : List Token) (wc : WordFrequency) (i : Nat) (text new : GoString),
      toks.length ≤ n →
      toks[i]? = some (Token.Text text) →
      (∀ j t, j + 1 = i → toks[j]? = some t → t.isAllowedTag = false) →
      countWordsLoop U (toks.set i (Token.Text new)) wc = countWordsLoop U toks wc := by
  intro n
  induction n with
  | zero =>
    intro toks wc i text new hlen hi _
    cases toks with
    | nil => simp at hi
    | cons tok rest => simp at hlen
  | succ n ih =>
    intro toks wc i text new hlen hi hprev
    cases toks with
    | nil => simp at hi
    | cons tok rest =>
      cases i with
      | zero =>
        simp only [List.getElem?_cons_zero, Option.some.injEq] at hi
        subst hi
        rw [List.set_cons_zero, countWordsLoop_skip U (Token.Text new) rest wc rfl,
          countWordsLoop_skip U (Token.Text text) rest wc rfl]
      | succ k =>
        simp only [List.getElem?_cons_succ] at hi
        have hlen2 : rest.length ≤ n := by simpa using hlen
        rw [List.set_cons_succ]
        by_cases hA : tok.isAllowedTag = true
        · cases k with
          | zero =>
            have := hprev 0 tok rfl (by simp)
            rw [hA] at this
            exact absurd this (by simp)
          | succ k2 =>
            cases rest with
            | nil => simp at hi
            | cons t2 rest2 =>
              simp only [List.getElem?_cons_succ] at hi
              have hlen3 : rest2.length ≤ n := by
                simp only [List.length_cons] at hlen2
                omega
              have hrec := fun wc2 => ih rest2 wc2 k2 text new hlen3 hi (by
                intro j t hj ht
                exact hprev (j + 2) t (by omega) (by simpa using ht))
              rw [List.set_cons_succ]
              cases t2 with
              | Text s =>
                rw [countWordsLoop_allowed_text U _ _ _ _ hA,
                  countWordsLoop_allowed_text U _ _ _ _ hA, hrec]
              | _ =>
                rw [countWordsLoop_allowed_other U _ _ _ _ hA (by intro s; simp),
                  countWordsLoop_allowed_other U _ _ _ _ hA (by intro s; simp), hrec]
        · have hA2 : tok.isAllowedTag = false := by simpa using hA
          have hrec := ih rest wc k text new hlen2 hi (by
            intro j t hj ht
            exact hprev (j + 1) t (by omega) (by simpa using ht))
          rw [countWordsLoop_skip U _ _ _ hA2, countWordsLoop_skip U _ _ _ hA2, hrec]

theorem allowed_not_void (m : GoString) (h : allowedTags m = true) : m ∉ voidElements := by
  have hall : ∀ x ∈ allowedTagNames, x ∉ voidElements := by decide
  exact hall m (by simpa [allowedTags] using h)

/-- Directly after an allowed start tag the innermost open element is that tag. -/
theorem enclosing_after_start (toks : List Token) (j : Nat) (m : GoString)
    (hj : toks[j]? = some (Token.StartTag m)) (hm : allowedTags m = true) :
    enclosing toks (j + 1) = some m := by
  have hnv := allowed_not_void m hm
  simp [enclosing, openElements, List.take_succ, hj, List.foldl_append, openStep, hnv]

/-- Claim C2 as stated fails on `<div><b>x</b>The Cat</div>`: token 4 is the text
`The Cat`, its innermost enclosing element is the `div`, and it comes directly
after the allowed end tag `</b>`; `countWords` counts `the` and `cat` once each,
and counts neither once the text is made empty. -/
theorem div_text_after_allowed_end_tag_is_counted :
    divAfterBold[4]? = some (Token.Text "The Cat".toList)
      ∧ enclosing divAfterBold 4 = some "div".toList
      ∧ allowedTags "div".toList = false
      ∧ count (countWords asciiOnly divAfterBold) "cat".toList = 1
      ∧ count (countWords asciiOnly (blankText divAfterBold 4)) "cat".toList = 0
      ∧ countWords asciiOnly divAfterBold ≠ countWords asciiOnly (blankText divAfterBold 4) := by
  refine ⟨by decide, by decide, by decide, by decide, by decide, ?_⟩
  intro h
  have h1 : count (countWords asciiOnly divAfterBold) "cat".toList = 1 := by decide
  have h0 : count (countWords asciiOnly (blankText divAfterBold 4)) "cat".toList = 0 := by
    decide
  rw [h, h0] at h1
  exact absurd h1 (by decide)

/-- Claim C2, amended: a text token whose innermost enclosing element is a tag
outside the allow-list (a `div`, a `script`) and that does not come directly
after an end tag of the allow-list contributes nothing: `countWords` returns the
same map when its content is made empty. What follows the text token does not
matter, so this holds when the text directly precedes an allowed start tag. -/
theorem text_in_disallowed_element_not_counted (U : UnicodeTables) (toks : List Token)
    (i : Nat) (text n : GoString)
    (htext : toks[i]? = some (Token.Text text))
    (henc : enclosing toks i = some n)
    (hn : allowedTags n = false)
    (hend : followsAllowedEndTag toks i = false) :
    countWords U toks = countWords U (blankText toks i) := by
  unfold countWords blankText
  refine (countWordsLoop_set_text U toks.length toks ∅ i text [] (le_refl _) htext ?_).symm
  intro j t hj ht
  subst hj
  cases t with
  | StartTag m =>
    by_contra hm
    have hm2 : allowedTags m = true := by simpa [Token.isAllowedTag] using hm
    have := enclosing_after_start toks j m ht hm2
    rw [henc] at this
    simp only [Option.some.injEq] at this
    subst this
    rw [hn] at hm2
    exact absurd hm2 (by simp)
  | EndTag m =>
    simpa [followsAllowedEndTag, ht, Token.isAllowedTag] using hend
  | _ => rfl

/-- Claim C2, amended, on `<div>The Cat<b>x</b></div>`: the text directly precedes
an allowed start tag. -/
theorem text_in_disallowed_element_not_counted_witness :
    divBeforeBold[1]? = some (Token.Text "The Cat".toList)
      ∧ enclosing divBeforeBold 1 = some "div".toList
      ∧ allowedTags "div".toList = false
      ∧ followsAllowedEndTag divBeforeBold 1 = false
      ∧ countWords asciiOnly divBeforeBold = countWords asciiOnly (blankText divBeforeBold 1) :=
  ⟨by decide, by decide, by decide, by decide,
    text_in_disallowed_element_not_counted asciiOnly divBeforeBold 1 "The Cat".toList
      "div".toList (by decide) (by decide) (by decide) (by decide)⟩

/-- Claim C3 fails on `<p><b>bold</b></p>`: token 1 is the allowed start tag `<b>`,
token 2 the text `bold`, whose one field normalizes to `bold`; `countWords`
returns the empty map, because `<b>` was consumed as the look-ahead of `<p>` and
`bold` then reaches the loop as a plain text token. -/
theorem text_after_consumed_tag_is_lost (U : UnicodeTables) :
    boldInParagraph[1]? = some (Token.StartTag "b".toList)
      ∧ allowedTags "b".toList = true
      ∧ boldInParagraph[2]? = some (Token.Text "bold".toList)
      ∧ fieldCount U "bold".toList "bold".toList = 1
      ∧ countWords U boldInParagraph = ∅
      ∧ count (countWords U boldInParagraph) "bold".toList = 0 :=
  ⟨rfl, rfl, rfl, rfl, rfl, rfl⟩

/-! ## Theorems: the goroutines, step by step -/

/-- Every move of `step` is one of the transitions of `Step`. -/
theorem step_sound (e : Env) (s s2 : State) (m : Move) (h : step e s m = some s2) :
    Step e s s2 := by
  cases m with
  | run j =>
    unfold step at h
    dsimp only at h
    split at h
    · exact absurd h (by simp)
    · next hj =>
      split at h
      · next hsem =>
        simp only [Option.some.injEq] at h
        subst h
        exact Step.acquire s j hj hsem
      · exact absurd h (by simp)
    · next hj =>
      split at h
      · next msg hf =>
        simp only [Option.some.injEq] at h
        subst h
        exact Step.fetchPanic s j msg hj hf
      · next body err hf =>
        simp only [Option.some.injEq] at h
        subst h
        exact Step.fetchErr s j body err hj hf
      · next body hf =>
        simp only [Option.some.injEq] at h
        subst h
        exact Step.fetchOk s j body hj hf
    · next err hj =>
      split at h
      · next hsem =>
        simp only [Option.some.injEq] at h
        subst h
        exact Step.logRelease s j err hj hsem
      · exact absurd h (by simp)
    · next body hj =>
      split at h
      · next hroom =>
        simp only [Option.some.injEq] at h
        subst h
        exact Step.emit s j body hj hroom
      · exact absurd h (by simp)
    · next hj =>
      split at h
      · next hsem =>
        simp only [Option.some.injEq] at h
        subst h
        exact Step.release s j hj hsem
      · exact absurd h (by simp)
    · exact absurd h (by simp)
    · exact absurd h (by simp)
  | handoff j k =>
    unfold step at h
    dsimp only at h
    by_cases hg : (semCap e != 0) = true
    · simp [hg] at h
    · rw [if_neg hg] at h
      have hcap : semCap e = 0 := by simpa using hg
      split at h
      · next err hj hk =>
        simp only [Option.some.injEq] at h
        subst h
        exact Step.handoffLog s j k err hcap hj hk
      · next hj hk =>
        simp only [Option.some.injEq] at h
        subst h
        exact Step.handoffRelease s j k hcap hj hk
      · exact absurd h (by simp)

/-- A property kept by every transition holds along every schedule. -/
theorem runMoves_induct (e : Env) (P : State → Prop)
    (hstep : ∀ s s2, P s → Step e s s2 → P s2) :
    ∀ (ms : List Move) (s s2 : State), P s → runMoves e s ms = some s2 → P s2 := by
  intro ms
  induction ms with
  | nil =>
    intro s s2 hs h
    simp only [runMoves, Option.some.injEq] at h
    exact h ▸ hs
  | cons m ms ih =>
    intro s s2 hs h
    simp only [runMoves] at h
    cases hm : step e s m with
    | none => simp [hm] at h
    | some s1 =>
      simp only [hm, Option.some_bind] at h
      exact ih s1 s2 (hstep s s1 hs (step_sound e s s1 m hm)) h

/-- A property of every goroutine is kept when one of them is moved to a place
that has it. -/
theorem set_keeps_all (P : Task → Prop) (tasks : List Task) (j : Nat) (new : Task)
    (hall : ∀ (i : Nat) (pc : Task), tasks[i]? = some pc → P pc) (hnew : P new) :
    ∀ (i : Nat) (pc : Task), (tasks.set j new)[i]? = some pc → P pc := by
  intro i pc h
  rw [List.getElem?_set] at h
  by_cases hji : j = i
  · rw [if_pos hji] at h
    by_cases hlt : j < tasks.length
    · rw [if_pos hlt] at h
      simp only [Option.some.injEq] at h
      exact h ▸ hnew
    · rw [if_neg hlt] at h
      exact absurd h (by simp)
  · rw [if_neg hji] at h
    exact hall i pc h

theorem fetch_no_response (httpGet : GoString → GetResult) (url : GoString)
    (h : (httpGet url).r = none) :
    fetch httpGet url
      = Outcome.panicked "runtime error: invalid memory address or nil pointer dereference".toList := by
  unfold fetch
  cases hg : httpGet url with
  | mk r err =>
    rw [hg] at h
    simp only at h
    subst h
    rfl

theorem init_tasks (e : Env) (j : Nat) (pc : Task)
    (h : (State.init e).tasks[j]? = some pc) : pc = Task.acquire := by
  simp only [State.init, List.getElem?_map] at h
  cases hj : e.input[j]? with
  | none => simp [hj] at h
  | some u =>
    simp only [hj, Option.map_some', Option.some.injEq] at h
    exact h.symm

/-! ## Theorems: `fetch` without a response -/

theorem noneReturned_step (e : Env) (hnet : ∀ u, (e.httpGet u).r = none) (s s2 : State)
    (hs : NoneReturned e s) (hstep : Step e s s2) : NoneReturned e s2 := by
  obtain ⟨hlog, hres, hwg, hpc⟩ := hs
  have bad : ∀ {j : Nat} {pc : Task}, s.tasks[j]? = some pc →
      pc ≠ Task.acquire → pc ≠ Task.fetching → pc ≠ Task.crashed → False := by
    intro j pc hj h1 h2 h3
    rcases hpc j pc hj with h | h | h
    · exact h1 h
    · exact h2 h
    · exact h3 h
  cases hstep with
  | acquire j hj hsem =>
    exact ⟨hlog, hres, hwg, set_keeps_all _ _ j _ hpc (Or.inr (Or.inl rfl))⟩
  | fetchPanic j msg hj hf =>
    exact ⟨hlog, hres, Or.inl rfl, set_keeps_all _ _ j _ hpc (Or.inr (Or.inr rfl))⟩
  | fetchErr j body err hj hf =>
    rw [fetch_no_response e.httpGet _ (hnet _)] at hf
    exact absurd hf (by simp)
  | fetchOk j body hj hf =>
    rw [fetch_no_response e.httpGet _ (hnet _)] at hf
    exact absurd hf (by simp)
  | logRelease j err hj hsem => exact (bad hj (by simp) (by simp) (by simp)).elim
  | emit j body hj hroom => exact (bad hj (by simp) (by simp) (by simp)).elim
  | release j hj hsem => exact (bad hj (by simp) (by simp) (by simp)).elim
  | handoffLog j k err hc hj hk => exact (bad hk (by simp) (by simp) (by simp)).elim
  | handoffRelease j k hc hj hk => exact (bad hk (by simp) (by simp) (by simp)).elim

theorem noneReturned_run (e : Env) (hnet : ∀ u, (e.httpGet u).r = none) (ms : List Move)
    (s : State) (hrun : runMoves e (State.init e) ms = some s) : NoneReturned e s :=
  runMoves_induct e (NoneReturned e) (noneReturned_step e hnet) ms _ s
    ⟨rfl, rfl, Or.inr rfl, fun j pc h => Or.inl (init_tasks e j pc h)⟩ hrun

/-- When no `http.Get` gives a response, no error is ever logged. -/
theorem log_empty_of_no_response (e : Env) (hnet : ∀ u, (e.httpGet u).r = none)
    (ms : List Move) :
    ((runMoves e (State.init e) ms).map (fun s => s.log)).getD [] = [] := by
  cases hrun : runMoves e (State.init e) ms with
  | none => rfl
  | some s => exact (noneReturned_run e hnet ms s hrun).1

/-- Once a goroutine has panicked the process is ending by that panic, whatever
the other goroutines still do. -/
theorem panicked_stays (e : Env) (s : State) (hp : s.panicked = true) (ms : List Move) :
    ((runMoves e s ms).map (fun s2 => s2.panicked)).getD true = true := by
  cases hrun : runMoves e s ms with
  | none => rfl
  | some s2 =>
    refine runMoves_induct e (fun t => t.panicked = true) ?_ ms s s2 hp hrun
    intro t t2 ht hstep
    cases hstep <;> first | rfl | exact ht

/-- Claim C4 fails whenever `http.Get` returns no response: `fetch` panics on
`r.Body` instead of returning the error. In the crawl of the source's two URLs
with the network down, once goroutine 0 has acquired and fetched, a panic is
ending the process, nothing is logged and the unit is still in `sem`; under
every schedule the log stays empty, and whatever follows that fetch the process
is ending by the panic. -/
theorem fetch_panics_without_response (url : GoString) (ms : List Move) :
    fetch offline url
        = Outcome.panicked "runtime error: invalid memory address or nil pointer dereference".toList
      ∧ runMoves offlineEnv (State.init offlineEnv) [Move.run 0, Move.run 0]
        = some offlineCrash
      ∧ offlineCrash.panicked = true ∧ offlineCrash.log = [] ∧ offlineCrash.sem = 1
      ∧ ((runMoves offlineEnv (State.init offlineEnv) ms).map (fun s => s.log)).getD [] = []
      ∧ ((runMoves offlineEnv (State.init offlineEnv) (Move.run 0 :: Move.run 0 :: ms)).map
          (fun s => s.panicked)).getD true = true :=
  ⟨rfl, rfl, rfl, rfl, rfl, log_empty_of_no_response offlineEnv (fun _ => rfl) ms,
    panicked_stays offlineEnv offlineCrash rfl ms⟩

/-! ## Theorems: the semaphore on one CPU -/

/-- With an unbuffered `sem` and every goroutine before its send, no goroutine
can move: a send needs a receiver and there is none. -/
theorem no_step_without_capacity (e : Env) (s s2 : State) (hcap : semCap e = 0)
    (hall : ∀ (j : Nat) (pc : Task), s.tasks[j]? = some pc → pc = Task.acquire) :
    ¬ Step e s s2 := by
  intro hstep
  cases hstep with
  | acquire j hj hsem => omega
  | fetchPanic j msg hj hf => exact absurd (hall j _ hj) (by simp)
  | fetchErr j body err hj hf => exact absurd (hall j _ hj) (by simp)
  | fetchOk j body hj hf => exact absurd (hall j _ hj) (by simp)
  | logRelease j err hj hsem => exact absurd (hall j _ hj) (by simp)
  | emit j body hj hroom => exact absurd (hall j _ hj) (by simp)
  | release j hj hsem => exact absurd (hall j _ hj) (by simp)
  | handoffLog j k err hc hj hk => exact absurd (hall k _ hk) (by simp)
  | handoffRelease j k hc hj hk => exact absurd (hall k _ hk) (by simp)

theorem init_stuck_without_capacity (e : Env) (hcap : semCap e = 0) :
    Stuck e (State.init e) := by
  intro m
  cases hm : step e (State.init e) m with
  | none => rfl
  | some s2 =>
    exact absurd (step_sound e _ s2 m hm)
      (no_step_without_capacity e _ s2 hcap (init_tasks e))

theorem main_none_without_capacity (e : Env) (hcap : semCap e = 0) (hne : e.input ≠ [])
    (ms : List Move) : main e ms = none := by
  cases ms with
  | nil =>
    have hlen : e.input.length ≠ 0 := by
      intro h
      exact hne (List.length_eq_zero.mp h)
    simp [main, runMoves, afterWait, State.init, hlen]
  | cons m ms =>
    simp [main, runMoves, init_stuck_without_capacity e hcap m]

/-- Claim C7 fails at one CPU: the capacity `parallelLimit - 1` of `sem` is 0, not
at least 1; in the crawl of the source's two URLs no goroutine can then pass its
send on `sem`, and `main` never gets past `wg.Wait()`, whatever the schedule. -/
theorem one_cpu_budget_is_zero (ms : List Move) :
    oneCpuEnv.NumCPU = 1
      ∧ semCap oneCpuEnv = 0
      ∧ ¬ (1 ≤ semCap oneCpuEnv)
      ∧ Stuck oneCpuEnv (State.init oneCpuEnv)
      ∧ main oneCpuEnv ms = none :=
  ⟨rfl, rfl, by decide, init_stuck_without_capacity oneCpuEnv rfl,
    main_none_without_capacity oneCpuEnv rfl (by decide) ms⟩

/-! ## Theorems: what the drain loop writes -/

theorem set_keeps_emitted (tasks : List Task) (js : List Nat) (j : Nat) (new : Task)
    (hjs : ∀ i ∈ js, tasks[i]? = some Task.releasing ∨ tasks[i]? = some Task.done)
    (hnew : (tasks[j]? = some Task.releasing ∨ tasks[j]? = some Task.done) →
      new = Task.releasing ∨ new = Task.done) :
    ∀ i ∈ js, (tasks.set j new)[i]? = some Task.releasing ∨
      (tasks.set j new)[i]? = some Task.done := by
  intro i hi
  by_cases hji : j = i
  · subst hji
    have hold := hjs j hi
    have hlt : j < tasks.length := by
      rcases hold with h | h <;> exact (List.getElem?_eq_some_iff.mp h).1
    rw [List.getElem?_set_self hlt]
    rcases hnew hold with h | h <;> simp [h]
  · rw [List.getElem?_set_ne hji]
    exact hjs i hi

theorem emitted_step (e : Env) (s s2 : State) (hs : Emitted e s) (hstep : Step e s s2) :
    Emitted e s2 := by
  obtain ⟨hlen, js, hnd, hpc, hres⟩ := hs
  have vac : ∀ {j : Nat} {pc new : Task}, s.tasks[j]? = some pc →
      pc ≠ Task.releasing → pc ≠ Task.done →
      (s.tasks[j]? = some Task.releasing ∨ s.tasks[j]? = some Task.done) →
      new = Task.releasing ∨ new = Task.done := by
    intro j pc new hj h1 h2 h
    rw [hj] at h
    rcases h with h | h
    · exact absurd (Option.some.inj h) h1
    · exact absurd (Option.some.inj h) h2
  cases hstep with
  | acquire j hj hsem =>
    exact ⟨by simpa using hlen, js, hnd,
      set_keeps_emitted _ js j _ hpc (vac hj (by simp) (by simp)), hres⟩
  | fetchPanic j msg hj hf =>
    exact ⟨by simpa using hlen, js, hnd,
      set_keeps_emitted _ js j _ hpc (vac hj (by simp) (by simp)), hres⟩
  | fetchErr j body err hj hf =>
    exact ⟨by simpa using hlen, js, hnd,
      set_keeps_emitted _ js j _ hpc (vac hj (by simp) (by simp)), hres⟩
  | fetchOk j body hj hf =>
    exact ⟨by simpa using hlen, js, hnd,
      set_keeps_emitted _ js j _ hpc (vac hj (by simp) (by simp)), hres⟩
  | logRelease j err hj hsem =>
    exact ⟨by simpa using hlen, js, hnd,
      set_keeps_emitted _ js j _ hpc (fun _ => Or.inr rfl), hres⟩
  | emit j body hj hroom =>
    have hnot : j ∉ js := by
      intro hmem
      rcases hpc j hmem with h | h <;> rw [hj] at h <;> simp at h
    have hlt : j < s.tasks.length := (List.getElem?_eq_some_iff.mp hj).1
    refine ⟨by simpa using hlen, js ++ [j], ?_, ?_, ?_⟩
    · rw [List.nodup_append]
      refine ⟨hnd, List.nodup_singleton j, ?_⟩
      intro a ha hb
      rw [List.mem_singleton] at hb
      subst hb
      exact hnot ha
    · intro i hi
      rw [List.mem_append, List.mem_singleton] at hi
      rcases hi with hi | hi
      · exact set_keeps_emitted _ js j _ hpc (fun _ => Or.inl rfl) i hi
      · subst hi
        exact Or.inl (List.getElem?_set_self hlt)
    · simp only [setCalls, List.map_append, List.map_cons, List.map_nil] at hres ⊢
      rw [hres]
  | release j hj hsem =>
    exact ⟨by simpa using hlen, js, hnd,
      set_keeps_emitted _ js j _ hpc (fun _ => Or.inr rfl), hres⟩
  | handoffLog j k err hc hj hk =>
    exact ⟨by simpa using hlen, js, hnd,
      set_keeps_emitted _ js k _
        (set_keeps_emitted _ js j _ hpc (vac hj (by simp) (by simp)))
        (fun _ => Or.inr rfl), hres⟩
  | handoffRelease j k hc hj hk =>
    exact ⟨by simpa using hlen, js, hnd,
      set_keeps_emitted _ js k _
        (set_keeps_emitted _ js j _ hpc (vac hj (by simp) (by simp)))
        (fun _ => Or.inr rfl), hres⟩

theorem emitted_init (e : Env) : Emitted e (State.init e) :=
  ⟨by simp [State.init], [], List.nodup_nil, by simp, by simp [State.init, setCalls]⟩

theorem setCalls_nodup (e : Env) (hnd : e.input.Nodup) (s : State) (hs : Emitted e s) :
    (setCalls s.results).Nodup := by
  obtain ⟨hlen, js, hjs, hpc, hres⟩ := hs
  rw [hres]
  refine List.Nodup.map_on ?_ hjs
  intro x hx y hy hxy
  have hxlt : x < e.input.length := by
    rw [← hlen]
    rcases hpc x hx with h | h <;> exact (List.getElem?_eq_some_iff.mp h).1
  have hylt : y < e.input.length := by
    rw [← hlen]
    rcases hpc y hy with h | h <;> exact (List.getElem?_eq_some_iff.mp h).1
  simp only [List.getD_eq_getElem?_getD, List.getElem?_eq_getElem hxlt,
    List.getElem?_eq_getElem hylt, Option.getD_some] at hxy
  exact (List.Nodup.getElem_inj_iff hnd).mp hxy

/-- Claim C6 as stated fails when the input holds a URL twice: in the crawl of
`[u, u]` with both fetches succeeding, `main` gets to its drain loop and the loop
calls `Set` twice with the key `u`. -/
theorem duplicate_url_is_set_twice :
    dupEnv.input = ["https://www.github.com".toList, "https://www.github.com".toList]
      ∧ (runMoves dupEnv (State.init dupEnv) inTurn).map (fun s => setCalls s.results)
          = some ["https://www.github.com".toList, "https://www.github.com".toList]
      ∧ (main dupEnv inTurn).isSome = true
      ∧ (runMoves dupEnv (State.init dupEnv) inTurn).map
          (fun s => setCount s.results "https://www.github.com".toList) = some 2 :=
  ⟨rfl, rfl, rfl, rfl⟩

/-- Claim C6, amended: for every input sequence of pairwise distinct URLs (the
code does not remove duplicates; its comments leave that to the caller), in
every state a crawl run can reach, the results waiting for the drain loop make it
call the store's `Set` at most once for each URL key. -/
theorem set_once_for_distinct_urls (e : Env) (hnd : e.input.Nodup) (ms : List Move)
    (s : State) (hrun : runMoves e (State.init e) ms = some s) (u : GoString) :
    setCount s.results u ≤ 1 := by
  have hs : Emitted e s :=
    runMoves_induct e (Emitted e) (emitted_step e) ms _ s (emitted_init e) hrun
  have h := List.nodup_iff_count_le_one.mp (setCalls_nodup e hnd s hs) u
  exact h

/-- Claim C6, amended, on the source's two URLs with both goroutines run to
their end. -/
theorem set_once_for_distinct_urls_witness :
    onlineEnv.input.Nodup
      ∧ runMoves onlineEnv (State.init onlineEnv) inTurn = some onlineDone
      ∧ setCount onlineDone.results "https://www.github.com".toList ≤ 1 :=
  ⟨by decide, rfl,
    set_once_for_distinct_urls onlineEnv (by decide) inTurn onlineDone rfl
      "https://www.github.com".toList⟩

/-! ## Theorems: the word filter in general -/

theorem ascii_of_toNat (P : Char → Prop) (h : ∀ n, n < 128 → P (Char.ofNat n)) (c : Char)
    (hc : c.toNat < 128) : P c := by
  have := h c.toNat hc
  rwa [Char.ofNat_toNat] at this

theorem isDigit_toNat_lt (d : Char) (h : d.isDigit = true) : d.toNat < 128 := by
  simp only [Char.isDigit, Bool.and_eq_true, decide_eq_true_eq] at h
  have h2 : d.val.toNat ≤ 57 := h.2
  simp only [Char.toNat]
  omega

theorem ascii_digit_table :
    ∀ n, n < 128 → (Char.ofNat n).isDigit = true →
      (Char.ofNat n).isAlpha = false ∧ (Char.ofNat n).toLower = Char.ofNat n := by
  decide

theorem ascii_lower_table :
    ∀ n, n < 128 →
      (Char.ofNat n).toLower.toNat < 128 ∧
        (Char.ofNat n).toLower.toLower = (Char.ofNat n).toLower := by
  decide

/-- An ASCII digit is a number, is not a letter, and is its own lower case. -/
theorem digit_runes (U : UnicodeTables) (d : Char) (h : d.isDigit = true) :
    ToLowerRune U d = d ∧ IsNumber U d = true ∧ IsLetter U d = false := by
  have hlt := isDigit_toNat_lt d h
  have hA : isASCII d = true := by simp [isASCII, hlt]
  have htab := ascii_of_toNat
    (fun c => c.isDigit = true → c.isAlpha = false ∧ c.toLower = c) ascii_digit_table d hlt h
  simp [ToLowerRune, IsNumber, IsLetter, hA, h, htab.1, htab.2]

theorem mem_dropWhile_of_false (f : Char → Bool) (c : Char) (hc : f c = false) :
    ∀ s : List Char, c ∈ s → c ∈ s.dropWhile f := by
  intro s
  induction s with
  | nil => intro h; exact h
  | cons a t ih =>
    intro h
    by_cases ha : f a = true
    · rw [List.dropWhile_cons_of_pos ha]
      rcases List.mem_cons.mp h with h | h
      · subst h
        rw [hc] at ha
        exact absurd ha (by simp)
      · exact ih h
    · rw [List.dropWhile_cons_of_neg ha]
      exact h

/-- Trimming keeps every rune the trim function rejects. -/
theorem mem_TrimFunc_of_false (f : Char → Bool) (c : Char) (hc : f c = false)
    (s : GoString) (h : c ∈ s) : c ∈ TrimFunc s f := by
  unfold TrimFunc List.rdropWhile
  rw [List.mem_reverse]
  apply mem_dropWhile_of_false f c hc
  rw [List.mem_reverse]
  exact mem_dropWhile_of_false f c hc s h

/-- Trimming adds no rune. -/
theorem mem_of_mem_TrimFunc (f : Char → Bool) (c : Char) (s : GoString)
    (h : c ∈ TrimFunc s f) : c ∈ s := by
  unfold TrimFunc at h
  exact List.dropWhile_subset f ((List.rdropWhile_prefix f _).subset h)

theorem normalized_incr (U : UnicodeTables) (m : WordFrequency) (w : GoString)
    (hm : Normalized U m) (h1 : w ≠ []) (h2 : isAlphabetical U w = true)
    (h3 : ToLower U w = w) : Normalized U (incr m w) := by
  intro k n hk
  by_cases hkw : k = w
  · subst hkw
    rw [lookup_incr_self] at hk
    simp only [Option.some.injEq] at hk
    exact ⟨h1, h2, h3, by omega⟩
  · rw [lookup_incr_of_ne m hkw] at hk
    exact hm k n hk

/-- With an idempotent lower-case mapping, a lower-cased and trimmed word is
its own lower case. -/
theorem toLower_trim_toLower (U : UnicodeTables)
    (hlow : ∀ c, ToLowerRune U (ToLowerRune U c) = ToLowerRune U c) (word : GoString) :
    ToLower U (trimNonAlphanumeric U (ToLower U word))
      = trimNonAlphanumeric U (ToLower U word) := by
  unfold ToLower
  conv_rhs => rw [← List.map_id (trimNonAlphanumeric U (List.map (ToLowerRune U) word))]
  apply List.map_congr_left
  intro c hc
  have hc2 : c ∈ List.map (ToLowerRune U) word := mem_of_mem_TrimFunc _ c _ hc
  obtain ⟨c0, _, rfl⟩ := List.mem_map.mp hc2
  simpa using hlow c0

theorem normalized_countWord (U : UnicodeTables)
    (hlow : ∀ c, ToLowerRune U (ToLowerRune U c) = ToLowerRune U c)
    (wc : WordFrequency) (word : GoString) (hm : Normalized U wc) :
    Normalized U (countWord U wc word) := by
  unfold countWord
  simp only
  split
  · next hcond =>
    simp only [Bool.and_eq_true, decide_eq_true_eq] at hcond
    exact normalized_incr U wc _ hm hcond.1 hcond.2 (toLower_trim_toLower U hlow word)
  · exact hm

theorem normalized_countText (U : UnicodeTables)
    (hlow : ∀ c, ToLowerRune U (ToLowerRune U c) = ToLowerRune U c)
    (wc : WordFrequency) (text : GoString) (hm : Normalized U wc) :
    Normalized U (countText U wc text) := by
  unfold countText
  generalize Fields U text = fs
  induction fs generalizing wc with
  | nil => exact hm
  | cons f fs ih => exact ih _ (normalized_countWord U hlow wc f hm)

/-- Claim C8: for every input, every key of the map returned by `countWords` is
non-empty, made of letters only and equal to its own lower case, and the count
stored under it is at least 1 (the lower-case mapping of the `unicode` tables
being idempotent). -/
theorem countWords_keys_normalized (U : UnicodeTables)
    (hlow : ∀ c, ToLowerRune U (ToLowerRune U c) = ToLowerRune U c)
    (r : List Token) (k : GoString) (n : Nat)
    (hk : (countWords U r).lookup k = some n) :
    k ≠ [] ∧ (∀ c ∈ k, IsLetter U c = true) ∧ isAlphabetical U k = true
      ∧ ToLower U k = k ∧ 1 ≤ n := by
  have hN : Normalized U (countWords U r) :=
    countWordsLoop_preserves U (Normalized U) (normalized_countText U hlow) r.length r ∅
      (le_refl _) (by intro k n h; simp at h)
  obtain ⟨h1, h2, h3, h4⟩ := hN k n hk
  refine ⟨h1, ?_, h2, h3, h4⟩
  intro c hc
  unfold isAlphabetical at h2
  exact List.all_eq_true.mp h2 c hc

theorem asciiOnly_lower_idempotent (c : Char) :
    ToLowerRune asciiOnly (ToLowerRune asciiOnly c) = ToLowerRune asciiOnly c := by
  by_cases hc : c.toNat < 128
  · have htab := ascii_of_toNat
      (fun c => c.toLower.toNat < 128 ∧ c.toLower.toLower = c.toLower) ascii_lower_table c hc
    simp [ToLowerRune, isASCII, hc, htab.1, htab.2]
  · simp [ToLowerRune, isASCII, hc, asciiOnly]

/-- Claim C8 on `<p>The Cat's Hat!!</p>` and its key `hat`. -/
theorem countWords_keys_normalized_witness :
    (countWords asciiOnly
        [Token.StartTag "p".toList, Token.Text "The Cat's Hat!!".toList,
         Token.EndTag "p".toList]).lookup "hat".toList = some 1
      ∧ ("hat".toList ≠ [] ∧ (∀ c ∈ "hat".toList, IsLetter asciiOnly c = true)
        ∧ isAlphabetical asciiOnly "hat".toList = true
        ∧ ToLower asciiOnly "hat".toList = "hat".toList ∧ 1 ≤ 1) :=
  ⟨by decide,
    countWords_keys_normalized asciiOnly asciiOnly_lower_idempotent
      [Token.StartTag "p".toList, Token.Text "The Cat's Hat!!".toList,
       Token.EndTag "p".toList] "hat".toList 1 (by decide)⟩

/-- A word holding a rune whose lower case is a number and not a letter is not
counted. -/
theorem countWord_of_number (U : UnicodeTables) (word : GoString) (d : Char)
    (hmem : d ∈ word) (hnum : IsNumber U (ToLowerRune U d) = true)
    (hlet : IsLetter U (ToLowerRune U d) = false) :
    ToLowerRune U d ∈ trimNonAlphanumeric U (ToLower U word)
      ∧ isAlphabetical U (trimNonAlphanumeric U (ToLower U word)) = false
      ∧ normalize U word = none
      ∧ ∀ wc, countWord U wc word = wc := by
  have h1 : ToLowerRune U d ∈ trimNonAlphanumeric U (ToLower U word) := by
    unfold trimNonAlphanumeric
    apply mem_TrimFunc_of_false
    · simp [hnum]
    · exact List.mem_map_of_mem _ hmem
  have h2 : isAlphabetical U (trimNonAlphanumeric U (ToLower U word)) = false := by
    unfold isAlphabetical
    rw [List.all_eq_false]
    exact ⟨_, h1, by simp [hlet]⟩
  refine ⟨h1, h2, ?_, ?_⟩
  · simp [normalize, h2]
  · intro wc
    simp [countWord, h2]

/-- Claim C9: a candidate word that contains a digit `0`..`9` at any position is
discarded by the filter of `countWords`: the trim does not remove the digit, the
trimmed word therefore fails `isAlphabetical`, and the loop body leaves the map
of counts as it was. -/
theorem word_with_digit_discarded (U : UnicodeTables) (word : GoString) (d : Char)
    (hmem : d ∈ word) (hdig : d.isDigit = true) :
    d ∈ trimNonAlphanumeric U (ToLower U word)
      ∧ isAlphabetical U (trimNonAlphanumeric U (ToLower U word)) = false
      ∧ normalize U word = none
      ∧ ∀ wc, countWord U wc word = wc := by
  obtain ⟨hlow, hnum, hlet⟩ := digit_runes U d hdig
  have h := countWord_of_number U word d hmem (by rw [hlow]; exact hnum)
    (by rw [hlow]; exact hlet)
  rw [hlow] at h
  exact h

/-- Claim C9 on the word `x1y`, digit inside. -/
theorem word_with_digit_discarded_witness :
    '1' ∈ "x1y".toList ∧ '1'.isDigit = true
      ∧ ('1' ∈ trimNonAlphanumeric asciiOnly (ToLower asciiOnly "x1y".toList)
        ∧ isAlphabetical asciiOnly
            (trimNonAlphanumeric asciiOnly (ToLower asciiOnly "x1y".toList)) = false
        ∧ normalize asciiOnly "x1y".toList = none
        ∧ ∀ wc, countWord asciiOnly wc "x1y".toList = wc) :=
  ⟨by decide, by decide,
    word_with_digit_discarded asciiOnly "x1y".toList '1' (by decide) (by decide)⟩

/-! ## Theorems: the order of arrival -/

theorem set_comm (c : cache) (x y : scrapResult) (h : x.url ≠ y.url) :
    cache.Set (cache.Set c x.url x.words) y.url y.words
      = cache.Set (cache.Set c y.url y.words) x.url x.words := by
  unfold cache.Set
  exact Finmap.insert_insert_of_ne c h

/-- Claim C10: for two lists of scrape results that are permutations of each
other and in which each URL occurs at most once, the drain loop (a `cache.Set`
per result, in list order) run from the same store ends with the same store. -/
theorem drain_order_independent (c : cache) (l1 l2 : List scrapResult)
    (hperm : l1.Perm l2) (hnd : (setCalls l1).Nodup) :
    drain c l1 = drain c l2 := by
  unfold drain
  refine List.Perm.foldl_eq' hperm ?_ c
  intro x hx y hy z
  by_cases hxy : x.url = y.url
  · have : x = y := List.inj_on_of_nodup_map hnd hx hy hxy
    rw [this]
  · exact set_comm z x y hxy

/-- Claim C10 on two results arriving in either order into the new cache. -/
theorem drain_order_independent_witness :
    [githubResult, gitlabResult].Perm [gitlabResult, githubResult]
      ∧ (setCalls [githubResult, gitlabResult]).Nodup
      ∧ drain NewInMemoryCache [githubResult, gitlabResult]
          = drain NewInMemoryCache [gitlabResult, githubResult] :=
  ⟨List.Perm.swap _ _ _, by decide,
    drain_order_independent NewInMemoryCache [githubResult, gitlabResult]
      [gitlabResult, githubResult] (List.Perm.swap _ _ _) (by decide)⟩

/-! ## Theorems: the result store -/

/-- Claim C11: for every store `c`, key `k` and value `v`, after `c.Set(k, v)`
the call `Get(k)` returns `(v, true)` and `Exists(k)` returns `true`; on the
store of `NewInMemoryCache`, `Get(k)` returns `(nil, false)` and `Exists(k)`
returns `false` for every key. -/
theorem get_after_set (c : cache) (k : GoString) (v : MapValue) :
    cache.Get (cache.Set c k v) k = (v, true)
      ∧ cache.Exists (cache.Set c k v) k = true
      ∧ cache.Get NewInMemoryCache k = (none, false)
      ∧ cache.Exists NewInMemoryCache k = false := by
  refine ⟨?_, ?_, ?_, ?_⟩
  · simp [cache.Get, cache.Set, Finmap.lookup_insert]
  · simp [cache.Exists, cache.Set, Finmap.lookup_insert]
  · simp [cache.Get, NewInMemoryCache, Finmap.lookup_empty]
  · simp [cache.Exists, NewInMemoryCache, Finmap.lookup_empty]

/-- Claim C19: for every store `c`, keys `k` and `k2` with `k2` different from
`k`, and value `v`, `c.Set(k, v)` leaves the entry of `k2` as it was: `Get(k2)`
and `Exists(k2)` return after the `Set` what they returned before. -/
theorem set_leaves_other_keys (c : cache) (k k2 : GoString) (v : MapValue)
    (hne : k2 ≠ k) :
    cache.Get (cache.Set c k v) k2 = cache.Get c k2
      ∧ cache.Exists (cache.Set c k v) k2 = cache.Exists c k2 := by
  constructor
  · simp [cache.Get, cache.Set, Finmap.lookup_insert_of_ne _ hne]
  · simp [cache.Exists, cache.Set, Finmap.lookup_insert_of_ne _ hne]

/-- Claim C19 on a store holding the first URL of the source, written at the
second. -/
theorem set_leaves_other_keys_witness :
    "https://www.github.com".toList ≠ "https://www.gitlab.com".toList
      ∧ cache.Get (cache.Set (drain NewInMemoryCache [githubResult])
            "https://www.gitlab.com".toList none) "https://www.github.com".toList
          = cache.Get (drain NewInMemoryCache [githubResult]) "https://www.github.com".toList
      ∧ cache.Exists (cache.Set (drain NewInMemoryCache [githubResult])
            "https://www.gitlab.com".toList none) "https://www.github.com".toList
          = cache.Exists (drain NewInMemoryCache [githubResult])
              "https://www.github.com".toList :=
  ⟨by decide,
    set_leaves_other_keys (drain NewInMemoryCache [githubResult])
      "https://www.gitlab.com".toList "https://www.github.com".toList none (by decide)⟩

/-- Claim C20: for every store `c` and key `k`, `c.Exists(k)` equals the found
flag of `c.Get(k)`, and when the flag is `false` the map returned by `Get` is
nil. -/
theorem exists_is_get_flag (c : cache) (k : GoString) :
    cache.Exists c k = (cache.Get c k).2
      ∧ ((cache.Get c k).2 = false → (cache.Get c k).1 = none) := by
  unfold cache.Exists cache.Get
  cases c.lookup k <;> simp

/-- Claim C20 on the new store, where the flag is `false`. -/
theorem exists_is_get_flag_witness :
    (cache.Get NewInMemoryCache "https://www.github.com".toList).2 = false
      ∧ cache.Exists NewInMemoryCache "https://www.github.com".toList
          = (cache.Get NewInMemoryCache "https://www.github.com".toList).2
      ∧ (cache.Get NewInMemoryCache "https://www.github.com".toList).1 = none :=
  ⟨rfl, (exists_is_get_flag NewInMemoryCache "https://www.github.com".toList).1,
    (exists_is_get_flag NewInMemoryCache "https://www.github.com".toList).2 rfl⟩

/-! ## Theorems: the token loop ends -/

/-- Induction along the token loop, which goes on with the rest of the stream
or with the rest less its first token. -/
theorem tokens_two_step (P : List Token → Prop) (hnil : P [])
    (hcons : ∀ tok rest, P rest → P rest.tail → P (tok :: rest)) : ∀ toks, P toks := by
  have both : ∀ toks, P toks ∧ P toks.tail := by
    intro toks
    induction toks with
    | nil => exact ⟨hnil, hnil⟩
    | cons tok rest ih => exact ⟨hcons tok rest ih.1 ih.2, ih.1⟩
  exact fun toks => (both toks).1

/-- The loop returns within one iteration more than there are tokens, with the
map of `countWordsLoop`. -/
theorem countWordsFuel_eq (U : UnicodeTables) :
    ∀ (toks : List Token) (wc : WordFrequency) (fuel : Nat), toks.length < fuel →
      countWordsFuel U fuel toks wc = some (countWordsLoop U toks wc) := by
  apply tokens_two_step
  · intro wc fuel hf
    cases fuel with
    | zero => omega
    | succ f => simp [countWordsFuel, Next, countWordsLoop]
  · intro tok rest ih1 ih2 wc fuel hf
    cases fuel with
    | zero => omega
    | succ f =>
      simp only [List.length_cons] at hf
      by_cases hA : tok.isAllowedTag = true
      · cases rest with
        | nil =>
          rw [countWordsLoop_allowed_end U tok wc hA]
          have := ih1 wc f (by simpa using hf)
          simp only [countWordsLoop] at this
          simp [countWordsFuel, Next, hA, this]
        | cons t2 rest2 =>
          simp only [List.length_cons] at hf
          simp only [List.tail_cons] at ih2
          cases t2 with
          | Text s =>
            rw [countWordsLoop_allowed_text U _ _ _ _ hA]
            simp [countWordsFuel, Next, hA, ih2 _ f (by omega)]
          | _ =>
            rw [countWordsLoop_allowed_other U _ _ _ _ hA (by intro s; simp)]
            simp [countWordsFuel, Next, hA, ih2 _ f (by omega)]
      · have hA2 : tok.isAllowedTag = false := by simpa using hA
        rw [countWordsLoop_skip U _ _ _ hA2]
        simp [countWordsFuel, Next, hA2, ih1 _ f (by omega)]

/-- Claim C12: for every finite token stream `countWords` terminates, within one
iteration of its loop more than there are tokens, and returns the map of counts
accumulated; at the end of input it returns the map it holds, also when the
end-of-input token is the look-ahead read after an allowed start or end tag. -/
theorem countWords_terminates (U : UnicodeTables) (r : List Token) (extra : Nat)
    (tok : Token) (wc : WordFrequency) (htok : tok.isAllowedTag = true) :
    countWordsFuel U (r.length + 1 + extra) r ∅ = some (countWords U r)
      ∧ countWordsFuel U (1 + extra) [] wc = some wc
      ∧ countWordsFuel U (2 + extra) [tok] wc = some wc := by
  refine ⟨countWordsFuel_eq U r ∅ _ (by omega), ?_, ?_⟩
  · rw [countWordsFuel_eq U [] wc _ (by simp only [List.length_nil]; omega)]
    simp [countWordsLoop]
  · rw [countWordsFuel_eq U [tok] wc _
        (by simp only [List.length_cons, List.length_nil]; omega),
      countWordsLoop_allowed_end U tok wc htok]

/-- Claim C12 on `<p>The Cat's Hat!!</p>`, with the end tag `</p>` followed by
the end of input. -/
theorem countWords_terminates_witness :
    (Token.EndTag "p".toList).isAllowedTag = true
      ∧ (countWordsFuel asciiOnly (3 + 1 + 0)
          [Token.StartTag "p".toList, Token.Text "The Cat's Hat!!".toList,
           Token.EndTag "p".toList] ∅
          = some (countWords asciiOnly
              [Token.StartTag "p".toList, Token.Text "The Cat's Hat!!".toList,
               Token.EndTag "p".toList])
        ∧ countWordsFuel asciiOnly (1 + 0) [] ∅ = some ∅
        ∧ countWordsFuel asciiOnly (2 + 0) [Token.EndTag "p".toList] ∅ = some ∅) :=
  ⟨by decide,
    countWords_terminates asciiOnly
      [Token.StartTag "p".toList, Token.Text "The Cat's Hat!!".toList,
       Token.EndTag "p".toList] 0 (Token.EndTag "p".toList) ∅ (by decide)⟩

/-- A stream without allowed tag leaves the map as it is. -/
theorem countWordsLoop_no_allowed (U : UnicodeTables) :
    ∀ (toks : List Token) (wc : WordFrequency),
      (∀ tok ∈ toks, tok.isAllowedTag = false) → countWordsLoop U toks wc = wc := by
  intro toks
  induction toks with
  | nil => intro wc _; simp [countWordsLoop]
  | cons tok rest ih =>
    intro wc h
    rw [countWordsLoop_skip U tok rest wc (h tok (List.mem_cons_self _ _))]
    exact ih wc (fun t ht => h t (List.mem_cons_of_mem _ ht))

/-- Claim C18: for every token stream without a start-tag or end-tag token whose
name is in the allow-list (the empty stream, streams of text, self-closing tags
and other tags), `countWords` returns the empty map, and it does return: the
loop ends by its `return`, no failure is signalled. -/
theorem countWords_without_allowed_tag (U : UnicodeTables) (r : List Token)
    (h : ∀ tok ∈ r, tok.isAllowedTag = false) :
    countWords U r = ∅ ∧ countWordsFuel U (r.length + 1) r ∅ = some ∅ := by
  have h1 : countWords U r = ∅ := countWordsLoop_no_allowed U r ∅ h
  refine ⟨h1, ?_⟩
  rw [countWordsFuel_eq U r ∅ _ (by omega)]
  exact congrArg some h1

/-- Claim C18 on a stream of text, a self-closing tag, a `div` and a comment. -/
theorem countWords_without_allowed_tag_witness :
    (∀ tok ∈ noAllowedTag, tok.isAllowedTag = false)
      ∧ countWords asciiOnly noAllowedTag = ∅
      ∧ countWordsFuel asciiOnly (noAllowedTag.length + 1) noAllowedTag ∅ = some ∅ :=
  ⟨by decide, countWords_without_allowed_tag asciiOnly noAllowedTag (by decide)⟩

/-! ## Theorems: the allow-list is only read -/

theorem countWordsLoopIn_skip (U : UnicodeTables) (table : TagTable) (tok : Token)
    (rest : List Token) (wc : WordFrequency) (h : tok.isAllowedIn table = false) :
    countWordsLoopIn U table (tok :: rest) wc = countWordsLoopIn U table rest wc := by
  cases rest with
  | nil => simp [countWordsLoopIn, h]
  | cons t2 rest2 => cases t2 <;> simp [countWordsLoopIn, h]

theorem countWordsLoopIn_allowed_end (U : UnicodeTables) (table : TagTable) (tok : Token)
    (wc : WordFrequency) (h : tok.isAllowedIn table = true) :
    countWordsLoopIn U table [tok] wc = (wc, table) := by
  simp [countWordsLoopIn, h]

theorem countWordsLoopIn_allowed_text (U : UnicodeTables) (table : TagTable) (tok : Token)
    (text : GoString) (rest : List Token) (wc : WordFrequency)
    (h : tok.isAllowedIn table = true) :
    countWordsLoopIn U table (tok :: Token.Text text :: rest) wc
      = countWordsLoopIn U table rest (countText U wc text) := by
  simp [countWordsLoopIn, h]

theorem countWordsLoopIn_allowed_other (U : UnicodeTables) (table : TagTable)
    (tok t2 : Token) (rest : List Token) (wc : WordFrequency)
    (h : tok.isAllowedIn table = true) (h2 : ∀ text, t2 ≠ Token.Text text) :
    countWordsLoopIn U table (tok :: t2 :: rest) wc = countWordsLoopIn U table rest wc := by
  cases t2 with
  | Text text => exact absurd rfl (h2 text)
  | _ => simp [countWordsLoopIn, h]

/-- The loop returns the variable as it received it. -/
theorem countWordsLoopIn_snd (U : UnicodeTables) (table : TagTable) :
    ∀ (toks : List Token) (wc : WordFrequency),
      (countWordsLoopIn U table toks wc).2 = table := by
  apply tokens_two_step
  · intro wc
    simp [countWordsLoopIn]
  · intro tok rest ih1 ih2 wc
    by_cases hA : tok.isAllowedIn table = true
    · cases rest with
      | nil => rw [countWordsLoopIn_allowed_end U table tok wc hA]
      | cons t2 rest2 =>
        simp only [List.tail_cons] at ih2
        cases t2 with
        | Text s =>
          rw [countWordsLoopIn_allowed_text U table _ _ _ _ hA]
          exact ih2 _
        | _ =>
          rw [countWordsLoopIn_allowed_other U table _ _ _ _ hA (by intro s; simp)]
          exact ih2 _
    · have hA2 : tok.isAllowedIn table = false := by simpa using hA
      rw [countWordsLoopIn_skip U table _ _ _ hA2]
      exact ih1 _

/-- With the variable at a value that reads as the allow-list of the source,
the loop computes the map of `countWordsLoop`. -/
theorem countWordsLoopIn_fst (U : UnicodeTables) (table : TagTable)
    (htab : ∀ n, table.get n = allowedTags n) :
    ∀ (toks : List Token) (wc : WordFrequency),
      (countWordsLoopIn U table toks wc).1 = countWordsLoop U toks wc := by
  have hguard : ∀ tok : Token, tok.isAllowedIn table = tok.isAllowedTag := by
    intro tok
    cases tok <;> simp [Token.isAllowedIn, Token.isAllowedTag, htab]
  apply tokens_two_step
  · intro wc
    simp [countWordsLoopIn, countWordsLoop]
  · intro tok rest ih1 ih2 wc
    by_cases hA : tok.isAllowedTag = true
    · have hB : tok.isAllowedIn table = true := by rw [hguard]; exact hA
      cases rest with
      | nil =>
        rw [countWordsLoopIn_allowed_end U table tok wc hB,
          countWordsLoop_allowed_end U tok wc hA]
      | cons t2 rest2 =>
        simp only [List.tail_cons] at ih2
        cases t2 with
        | Text s =>
          rw [countWordsLoopIn_allowed_text U table _ _ _ _ hB,
            countWordsLoop_allowed_text U _ _ _ _ hA]
          exact ih2 _
        | _ =>
          rw [countWordsLoopIn_allowed_other U table _ _ _ _ hB (by intro s; simp),
            countWordsLoop_allowed_other U _ _ _ _ hA (by intro s; simp)]
          exact ih2 _
    · have hA2 : tok.isAllowedTag = false := by simpa using hA
      have hB2 : tok.isAllowedIn table = false := by rw [hguard]; exact hA2
      rw [countWordsLoopIn_skip U table _ _ _ hB2, countWordsLoop_skip U _ _ _ hA2]
      exact ih1 _

theorem lookup_foldl_insert_true (names : List GoString) :
    ∀ (table : TagTable) (n : GoString),
      (names.foldl (fun table name => Finmap.insert name true table) table).lookup n
        = if n ∈ names then some true else table.lookup n := by
  induction names with
  | nil => intro table n; simp
  | cons a names ih =>
    intro table n
    rw [List.foldl_cons, ih]
    by_cases hn : n ∈ names
    · simp [hn]
    · by_cases hna : n = a
      · subst hna
        simp [hn, Finmap.lookup_insert]
      · simp [hn, hna, Finmap.lookup_insert_of_ne _ hna]

/-- The initial value of the variable reads as the allow-list of the source. -/
theorem allowedTagsInit_get (n : GoString) : allowedTagsInit.get n = allowedTags n := by
  unfold TagTable.get allowedTagsInit allowedTags
  rw [lookup_foldl_insert_true]
  by_cases hn : n ∈ allowedTagNames <;> simp [hn]

/-- Claim C16: extraction is pure. `countWords` leaves the variable `allowedTags`
as it found it, so its result on an input is the same after any earlier run as
without it, two runs on the same input return the same map, and with
`allowedTags` at its initial value the map is that of `countWords`. -/
theorem countWords_pure (U : UnicodeTables) (table : TagTable) (r earlier : List Token) :
    (countWordsIn U table r).2 = table
      ∧ (countWordsIn U (countWordsIn U table earlier).2 r).1 = (countWordsIn U table r).1
      ∧ (countWordsIn U (countWordsIn U table r).2 r).1 = (countWordsIn U table r).1
      ∧ (countWordsIn U allowedTagsInit r).1 = countWords U r := by
  have hsnd : ∀ toks, (countWordsIn U table toks).2 = table :=
    fun toks => countWordsLoopIn_snd U table toks ∅
  refine ⟨hsnd r, ?_, ?_, ?_⟩
  · rw [hsnd earlier]
  · rw [hsnd r]
  · exact countWordsLoopIn_fst U allowedTagsInit allowedTagsInit_get r ∅

/-! ## Theorems: the counts of one text token -/

/-- The loop body counts a field under the word it normalizes to. -/
theorem countWord_eq (U : UnicodeTables) (wc : WordFrequency) (f : GoString) :
    countWord U wc f = match normalize U f with
      | some w => incr wc w
      | none => wc := by
  unfold countWord normalize
  simp only
  split <;> rfl

theorem count_incr (m : WordFrequency) (w k : GoString) :
    count (incr m w) k = count m k + (if k = w then 1 else 0) := by
  unfold count
  by_cases hk : k = w
  · subst hk
    simp [lookup_incr_self]
  · simp [lookup_incr_of_ne m hk, hk]

/-- The entry of `w` after the fields `fs` have been counted into `wc`. -/
theorem lookup_foldl_countWord (U : UnicodeTables) (w : GoString) :
    ∀ (fs : List GoString) (wc : WordFrequency),
      (fs.foldl (countWord U) wc).lookup w
        = if wc.lookup w = none ∧ fs.countP (fun f => decide (normalize U f = some w)) = 0
          then none
          else some (count wc w + fs.countP (fun f => decide (normalize U f = some w))) := by
  intro fs
  induction fs with
  | nil =>
    intro wc
    cases h : wc.lookup w <;> simp [count, h]
  | cons f fs ih =>
    intro wc
    rw [List.foldl_cons, ih, countWord_eq, List.countP_cons]
    cases hn : normalize U f with
    | none => simp
    | some w2 =>
      by_cases hw : w = w2
      · subst hw
        simp only [lookup_incr_self, count_incr, if_true, decide_True]
        simp
        omega
      · have hw2 : ¬ (w2 = w) := fun h => hw h.symm
        simp [lookup_incr_of_ne wc hw, count_incr, hw, hw2]

theorem keys_incr (m : WordFrequency) (w : GoString) :
    (incr m w).keys = insert w m.keys := by
  ext k
  simp [incr, Finmap.mem_keys, Finmap.mem_insert]

theorem total_incr (m : WordFrequency) (w : GoString) : total (incr m w) = total m + 1 := by
  unfold total
  rw [keys_incr]
  simp only [count_incr]
  rw [Finset.sum_add_distrib, Finset.sum_ite_eq' (insert w m.keys) w (fun _ => 1)]
  simp only [Finset.mem_insert, true_or, if_true]
  rw [Finset.sum_insert_of_eq_zero_if_not_mem]
  intro hw
  have : m.lookup w = none := Finmap.lookup_eq_none.mpr (fun h => hw (Finmap.mem_keys.mpr h))
  simp [count, this]

theorem total_foldl_countWord (U : UnicodeTables) :
    ∀ (fs : List GoString) (wc : WordFrequency),
      total (fs.foldl (countWord U) wc) = total wc + fs.countP (passes U) := by
  intro fs
  induction fs with
  | nil => intro wc; simp
  | cons f fs ih =>
    intro wc
    rw [List.foldl_cons, ih, countWord_eq, List.countP_cons]
    cases hn : normalize U f with
    | none => simp [passes, hn]
    | some w2 =>
      simp only [passes, hn, Option.isSome_some, if_true]
      rw [total_incr]
      omega

/-- Claim C17: for every allowed tag name `t` and every text `T`, `countWords` on
start tag `t`, text `T`, end tag `t` returns the map that sends each word `w` to
the number of whitespace-separated fields of `T` whose lower-cased and trimmed
form is non-empty, letters-only and equal to `w`, and that has no other key; the
sum of all its counts is the number of fields of `T` that pass the filter. -/
theorem countWords_one_element (U : UnicodeTables) (t T : GoString)
    (ht : allowedTags t = true) (w : GoString) :
    (countWords U [Token.StartTag t, Token.Text T, Token.EndTag t]).lookup w
        = (if fieldCount U T w = 0 then none else some (fieldCount U T w))
      ∧ total (countWords U [Token.StartTag t, Token.Text T, Token.EndTag t])
        = (Fields U T).countP (passes U) := by
  have h1 : countWords U [Token.StartTag t, Token.Text T, Token.EndTag t]
      = (Fields U T).foldl (countWord U) ∅ := by
    simp [countWords, countWordsLoop, Token.isAllowedTag, ht, countText]
  rw [h1]
  constructor
  · rw [lookup_foldl_countWord]
    simp [fieldCount, count]
  · rw [total_foldl_countWord]
    simp [total]

/-- Claim C17 on `<p>The Cat's Hat!!</p>` and the word `hat`: one field of three
normalizes to it, two pass the filter. -/
theorem countWords_one_element_witness :
    allowedTags "p".toList = true
      ∧ fieldCount asciiOnly "The Cat's Hat!!".toList "hat".toList = 1
      ∧ (Fields asciiOnly "The Cat's Hat!!".toList).countP (passes asciiOnly) = 2
      ∧ ((countWords asciiOnly
            [Token.StartTag "p".toList, Token.Text "The Cat's Hat!!".toList,
             Token.EndTag "p".toList]).lookup "hat".toList
          = (if fieldCount asciiOnly "The Cat's Hat!!".toList "hat".toList = 0 then none
             else some (fieldCount asciiOnly "The Cat's Hat!!".toList "hat".toList))
        ∧ total (countWords asciiOnly
            [Token.StartTag "p".toList, Token.Text "The Cat's Hat!!".toList,
             Token.EndTag "p".toList])
          = (Fields asciiOnly "The Cat's Hat!!".toList).countP (passes asciiOnly)) :=
  ⟨by decide, by decide, by decide,
    countWords_one_element asciiOnly "p".toList "The Cat's Hat!!".toList (by decide)
      "hat".toList⟩

/-! ## Theorems: the semaphore and the wait group -/

/-- Moving one goroutine changes a count over the goroutines by what the old
and the new place contribute. -/
theorem countP_set_add (p : Task → Bool) :
    ∀ (l : List Task) (j : Nat) (old new : Task), l[j]? = some old →
      (l.set j new).countP p + (if p old then 1 else 0)
        = l.countP p + (if p new then 1 else 0) := by
  intro l
  induction l with
  | nil => intro j old new h; simp at h
  | cons a l ih =>
    intro j old new h
    cases j with
    | zero =>
      simp only [List.getElem?_cons_zero, Option.some.injEq] at h
      subst h
      simp only [List.set_cons_zero, List.countP_cons]
      omega
    | succ j =>
      simp only [List.getElem?_cons_succ] at h
      have := ih j old new h
      simp only [List.set_cons_succ, List.countP_cons]
      omega

theorem ne_crashed_set (l : List Task) (j : Nat) (new : Task) (hnew : new ≠ Task.crashed)
    (h : ∀ t ∈ l, t ≠ Task.crashed) : ∀ t ∈ l.set j new, t ≠ Task.crashed := by
  intro t ht
  rcases List.mem_or_eq_of_mem_set ht with h1 | h1
  · exact h t h1
  · rw [h1]
    exact hnew

theorem countP_all_acquire (p : Task → Bool) (l : List GoString) :
    (l.map (fun _ => Task.acquire)).countP p = if p Task.acquire then l.length else 0 := by
  induction l with
  | nil => simp
  | cons a l ih =>
    rw [List.map_cons, List.countP_cons, ih]
    by_cases hp : p Task.acquire = true
    · simp [hp]
    · simp [hp]

theorem budget_init (e : Env) : Budget e (State.init e) := by
  refine ⟨?_, Nat.zero_le _, ?_, ?_⟩
  · simp only [State.init, countP_all_acquire, Task.holds]
    simp
  · simp only [State.init, countP_all_acquire, Task.pending]
    simp
  · intro _ t ht
    simp only [State.init, List.mem_map] at ht
    obtain ⟨_, _, rfl⟩ := ht
    simp

theorem budget_step (e : Env) (s s2 : State) (hs : Budget e s) (hstep : Step e s s2) :
    Budget e s2 := by
  obtain ⟨hsem, hcap, hwg, hcr⟩ := hs
  cases hstep with
  | acquire j hj hsem2 =>
    have h1 := countP_set_add Task.holds s.tasks j _ Task.fetching hj
    have h2 := countP_set_add Task.pending s.tasks j _ Task.fetching hj
    simp [Task.holds, Task.pending] at h1 h2
    refine ⟨?_, ?_, ?_, fun hp => ne_crashed_set _ j _ (by simp) (hcr hp)⟩
    · simp only at h1 ⊢; omega
    · simp only; omega
    · simp only at h2 ⊢; omega
  | fetchPanic j msg hj hf =>
    have h1 := countP_set_add Task.holds s.tasks j _ Task.crashed hj
    have h2 := countP_set_add Task.pending s.tasks j _ Task.crashed hj
    simp [Task.holds, Task.pending] at h1 h2
    refine ⟨?_, ?_, ?_, fun hp => absurd hp (by simp)⟩
    · simp only at h1 ⊢; omega
    · simp only; omega
    · simp only at h2 ⊢; omega
  | fetchErr j body err hj hf =>
    have h1 := countP_set_add Task.holds s.tasks j _ (Task.failed err) hj
    have h2 := countP_set_add Task.pending s.tasks j _ (Task.failed err) hj
    simp [Task.holds, Task.pending] at h1 h2
    refine ⟨?_, ?_, ?_, fun hp => ne_crashed_set _ j _ (by simp) (hcr hp)⟩
    · simp only at h1 ⊢; omega
    · simp only; omega
    · simp only at h2 ⊢; omega
  | fetchOk j body hj hf =>
    have h1 := countP_set_add Task.holds s.tasks j _ (Task.counting body) hj
    have h2 := countP_set_add Task.pending s.tasks j _ (Task.counting body) hj
    simp [Task.holds, Task.pending] at h1 h2
    refine ⟨?_, ?_, ?_, fun hp => ne_crashed_set _ j _ (by simp) (hcr hp)⟩
    · simp only at h1 ⊢; omega
    · simp only; omega
    · simp only at h2 ⊢; omega
  | logRelease j err hj hsem2 =>
    have h1 := countP_set_add Task.holds s.tasks j _ Task.done hj
    have h2 := countP_set_add Task.pending s.tasks j _ Task.done hj
    simp [Task.holds, Task.pending] at h1 h2
    refine ⟨?_, ?_, ?_, fun hp => ne_crashed_set _ j _ (by simp) (hcr hp)⟩
    · simp only at h1 ⊢; omega
    · simp only; omega
    · simp only at h2 ⊢; omega
  | emit j body hj hroom =>
    have h1 := countP_set_add Task.holds s.tasks j _ Task.releasing hj
    have h2 := countP_set_add Task.pending s.tasks j _ Task.releasing hj
    simp [Task.holds, Task.pending] at h1 h2
    refine ⟨?_, ?_, ?_, fun hp => ne_crashed_set _ j _ (by simp) (hcr hp)⟩
    · simp only at h1 ⊢; omega
    · simp only; omega
    · simp only at h2 ⊢; omega
  | release j hj hsem2 =>
    have h1 := countP_set_add Task.holds s.tasks j _ Task.done hj
    have h2 := countP_set_add Task.pending s.tasks j _ Task.done hj
    simp [Task.holds, Task.pending] at h1 h2
    refine ⟨?_, ?_, ?_, fun hp => ne_crashed_set _ j _ (by simp) (hcr hp)⟩
    · simp only at h1 ⊢; omega
    · simp only; omega
    · simp only at h2 ⊢; omega
  | handoffLog j k err hc hj hk =>
    have hjk : j ≠ k := by
      intro h
      rw [h, hk] at hj
      simp at hj
    have hk2 : (s.tasks.set j Task.fetching)[k]? = some (Task.failed err) := by
      rw [List.getElem?_set_ne hjk]
      exact hk
    have h1 := countP_set_add Task.holds s.tasks j _ Task.fetching hj
    have h2 := countP_set_add Task.pending s.tasks j _ Task.fetching hj
    have h3 := countP_set_add Task.holds _ k _ Task.done hk2
    have h4 := countP_set_add Task.pending _ k _ Task.done hk2
    simp [Task.holds, Task.pending] at h1 h2 h3 h4
    refine ⟨?_, ?_, ?_, fun hp =>
      ne_crashed_set _ k _ (by simp) (ne_crashed_set _ j _ (by simp) (hcr hp))⟩
    · simp only at h1 h3 ⊢; omega
    · simp only; omega
    · simp only at h2 h4 ⊢; omega
  | handoffRelease j k hc hj hk =>
    have hjk : j ≠ k := by
      intro h
      rw [h, hk] at hj
      simp at hj
    have hk2 : (s.tasks.set j Task.fetching)[k]? = some Task.releasing := by
      rw [List.getElem?_set_ne hjk]
      exact hk
    have h1 := countP_set_add Task.holds s.tasks j _ Task.fetching hj
    have h2 := countP_set_add Task.pending s.tasks j _ Task.fetching hj
    have h3 := countP_set_add Task.holds _ k _ Task.done hk2
    have h4 := countP_set_add Task.pending _ k _ Task.done hk2
    simp [Task.holds, Task.pending] at h1 h2 h3 h4
    refine ⟨?_, ?_, ?_, fun hp =>
      ne_crashed_set _ k _ (by simp) (ne_crashed_set _ j _ (by simp) (hcr hp))⟩
    · simp only at h1 h3 ⊢; omega
    · simp only; omega
    · simp only at h2 h4 ⊢; omega

theorem budget_run (e : Env) (ms : List Move) (s : State)
    (hrun : runMoves e (State.init e) ms = some s) : Budget e s :=
  runMoves_induct e (Budget e) (budget_step e) ms _ s (budget_init e) hrun

/-- Claim C15: for every list of URLs and every interleaving of the goroutines of
`main`, in every state reached the number of goroutines between their send on
`sem` and their receive from it is at most the capacity of `sem` (for a
capacity `N >= 1`, and for capacity 0 as well). -/
theorem at_most_capacity_hold (e : Env) (ms : List Move) (s : State)
    (hrun : runMoves e (State.init e) ms = some s) :
    s.tasks.countP Task.holds ≤ semCap e := by
  obtain ⟨hsem, hcap, _, _⟩ := budget_run e ms s hrun
  omega

/-- Claim C15 on the source's two URLs on 4 CPUs after both goroutines have
sent: two hold, the capacity is 3. -/
theorem at_most_capacity_hold_witness :
    runMoves onlineEnv (State.init onlineEnv) [Move.run 0, Move.run 1] = some bothFetching
      ∧ 1 ≤ semCap onlineEnv
      ∧ bothFetching.tasks.countP Task.holds ≤ semCap onlineEnv :=
  ⟨rfl, by decide,
    at_most_capacity_hold onlineEnv [Move.run 0, Move.run 1] bothFetching rfl⟩

/-! ## Theorems: sends and receives of one goroutine -/

theorem getElem?_set_of_some (l : List Task) (i j : Nat) (old new : Task)
    (hi : l[i]? = some old) :
    (l.set i new)[j]? = if i = j then some new else l[j]? := by
  have hlt : i < l.length := (List.getElem?_eq_some_iff.mp hi).1
  rw [List.getElem?_set]
  by_cases hij : i = j
  · subst hij
    rw [if_pos rfl, if_pos rfl, if_pos hlt]
  · rw [if_neg hij, if_neg hij]

/-- One move of `run i` that takes goroutine `i` from `old` to `new` changes
the sends and receives behind goroutine `j` by what the move executes. -/
theorem run_counts (s : State) (i j : Nat) (old new : Task)
    (hi : s.tasks[i]? = some old)
    (hsend : hasSent (some old) + (if old = Task.acquire then 1 else 0) = hasSent (some new))
    (hrecv : hasReceived (some old) + (if receivesOn s i (Move.run i) then 1 else 0)
      = hasReceived (some new)) :
    hasSent (s.tasks[j]?) + (if sendsOn s j (Move.run i) then 1 else 0)
        = hasSent ((s.tasks.set i new)[j]?)
      ∧ hasReceived (s.tasks[j]?) + (if receivesOn s j (Move.run i) then 1 else 0)
        = hasReceived ((s.tasks.set i new)[j]?) := by
  rw [getElem?_set_of_some s.tasks i j old new hi]
  by_cases hij : i = j
  · subst hij
    simp only [if_true, hi]
    constructor
    · have : sendsOn s i (Move.run i) = decide (old = Task.acquire) := by
        simp [sendsOn, hi]
      rw [this]
      simpa using hsend
    · exact hrecv
  · simp [hij, sendsOn, receivesOn]

theorem step_counts (e : Env) (s s1 : State) (m : Move) (j : Nat)
    (h : step e s m = some s1) :
    hasSent (s.tasks[j]?) + (if sendsOn s j m then 1 else 0) = hasSent (s1.tasks[j]?)
      ∧ hasReceived (s.tasks[j]?) + (if receivesOn s j m then 1 else 0)
        = hasReceived (s1.tasks[j]?) := by
  cases m with
  | run i =>
    unfold step at h
    dsimp only at h
    split at h
    · exact absurd h (by simp)
    · next hi =>
      split at h
      · simp only [Option.some.injEq] at h
        subst h
        exact run_counts s i j _ _ hi (by simp [hasSent]) (by simp [hasReceived, receivesOn, hi])
      · exact absurd h (by simp)
    · next hi =>
      split at h
      · simp only [Option.some.injEq] at h
        subst h
        exact run_counts s i j _ _ hi (by simp [hasSent]) (by simp [hasReceived, receivesOn, hi])
      · simp only [Option.some.injEq] at h
        subst h
        exact run_counts s i j _ _ hi (by simp [hasSent]) (by simp [hasReceived, receivesOn, hi])
      · simp only [Option.some.injEq] at h
        subst h
        exact run_counts s i j _ _ hi (by simp [hasSent]) (by simp [hasReceived, receivesOn, hi])
    · next err hi =>
      split at h
      · simp only [Option.some.injEq] at h
        subst h
        exact run_counts s i j _ _ hi (by simp [hasSent]) (by simp [hasReceived, receivesOn, hi])
      · exact absurd h (by simp)
    · next body hi =>
      split at h
      · simp only [Option.some.injEq] at h
        subst h
        exact run_counts s i j _ _ hi (by simp [hasSent]) (by simp [hasReceived, receivesOn, hi])
      · exact absurd h (by simp)
    · next hi =>
      split at h
      · simp only [Option.some.injEq] at h
        subst h
        exact run_counts s i j _ _ hi (by simp [hasSent]) (by simp [hasReceived, receivesOn, hi])
      · exact absurd h (by simp)
    · exact absurd h (by simp)
    · exact absurd h (by simp)
  | handoff i k =>
    unfold step at h
    dsimp only at h
    by_cases hg : (semCap e != 0) = true
    · simp [hg] at h
    · rw [if_neg hg] at h
      have key : ∀ (oldk : Task), s.tasks[i]? = some Task.acquire →
          s.tasks[k]? = some oldk → hasSent (some oldk) = 1 → hasReceived (some oldk) = 0 →
          hasSent (s.tasks[j]?) + (if sendsOn s j (Move.handoff i k) then 1 else 0)
              = hasSent (((s.tasks.set i Task.fetching).set k Task.done)[j]?)
            ∧ hasReceived (s.tasks[j]?)
                + (if receivesOn s j (Move.handoff i k) then 1 else 0)
              = hasReceived (((s.tasks.set i Task.fetching).set k Task.done)[j]?) := by
        intro oldk hi hk hs hr
        have hik : i ≠ k := by
          intro heq
          rw [heq, hk] at hi
          rw [Option.some.injEq] at hi
          rw [hi] at hs
          simp [hasSent] at hs
        have hk2 : (s.tasks.set i Task.fetching)[k]? = some oldk := by
          rw [List.getElem?_set_ne hik]
          exact hk
        rw [getElem?_set_of_some _ k j oldk Task.done hk2,
          getElem?_set_of_some _ i j Task.acquire Task.fetching hi]
        by_cases hkj : k = j
        · subst hkj
          rw [hk, hs, hr]
          simp [sendsOn, receivesOn, hik, hasSent, hasReceived]
        · by_cases hij : i = j
          · subst hij
            simp [sendsOn, receivesOn, hkj, hi, hasSent, hasReceived]
          · simp [sendsOn, receivesOn, hkj, hij]
      split at h
      · next err hi hk =>
        simp only [Option.some.injEq] at h
        subst h
        exact key _ hi hk (by simp [hasSent]) (by simp [hasReceived])
      · next hi hk =>
        simp only [Option.some.injEq] at h
        subst h
        exact key _ hi hk (by simp [hasSent]) (by simp [hasReceived])
      · exact absurd h (by simp)

theorem runMoves_counts (e : Env) (j : Nat) :
    ∀ (ms : List Move) (s s2 : State), runMoves e s ms = some s2 →
      hasSent (s.tasks[j]?) + sendCount e j s ms = hasSent (s2.tasks[j]?)
        ∧ hasReceived (s.tasks[j]?) + receiveCount e j s ms = hasReceived (s2.tasks[j]?) := by
  intro ms
  induction ms with
  | nil =>
    intro s s2 h
    simp only [runMoves, Option.some.injEq] at h
    subst h
    simp [sendCount, receiveCount]
  | cons m ms ih =>
    intro s s2 h
    simp only [runMoves] at h
    cases hm : step e s m with
    | none => simp [hm] at h
    | some s1 =>
      simp only [hm, Option.some_bind] at h
      obtain ⟨h1, h2⟩ := step_counts e s s1 m j hm
      obtain ⟨h3, h4⟩ := ih s1 s2 h
      simp only [sendCount, receiveCount, hm]
      constructor <;> omega

theorem hasReceived_le_hasSent (t : Option Task) : hasReceived t ≤ hasSent t ∧ hasSent t ≤ 1 := by
  cases t with
  | none => simp [hasReceived, hasSent]
  | some pc => cases pc <;> simp [hasReceived, hasSent]

/-! ## Theorems: which fetches lead to a result -/

/-- A property of every goroutine and its index is kept when one of them is
moved to a place that has it. -/
theorem set_keeps_all_at (P : Nat → Task → Prop) (tasks : List Task) (j : Nat) (new : Task)
    (hall : ∀ (i : Nat) (pc : Task), tasks[i]? = some pc → P i pc) (hnew : P j new) :
    ∀ (i : Nat) (pc : Task), (tasks.set j new)[i]? = some pc → P i pc := by
  intro i pc h
  rw [List.getElem?_set] at h
  by_cases hji : j = i
  · rw [if_pos hji] at h
    by_cases hlt : j < tasks.length
    · rw [if_pos hlt] at h
      simp only [Option.some.injEq] at h
      rw [← h, ← hji]
      exact hnew
    · rw [if_neg hlt] at h
      exact absurd h (by simp)
  · rw [if_neg hji] at h
    exact hall i pc h

theorem fetched_step (e : Env) (s s2 : State) (hs : Fetched e s) (hstep : Step e s s2) :
    Fetched e s2 := by
  obtain ⟨hpc, hres⟩ := hs
  have hpc2 : ∀ (i : Nat) (pc : Task), s.tasks[i]? = some pc →
      ∀ body, pc = Task.counting body →
        fetch e.httpGet (e.input.getD i []) = Outcome.returned (body, none) := by
    intro i pc hi body hb
    rw [hb] at hi
    exact hpc i body hi
  have keep : ∀ (j : Nat) (new : Task), (∀ body, new ≠ Task.counting body) →
      ∀ (i : Nat) (body : List Token), (s.tasks.set j new)[i]? = some (Task.counting body) →
        fetch e.httpGet (e.input.getD i []) = Outcome.returned (body, none) := by
    intro j new hnew i body hi
    exact set_keeps_all_at
      (fun i pc => ∀ body, pc = Task.counting body →
        fetch e.httpGet (e.input.getD i []) = Outcome.returned (body, none))
      s.tasks j new hpc2 (fun b hb => absurd hb (hnew b)) i _ hi body rfl
  cases hstep with
  | acquire j hj hsem => exact ⟨keep j _ (by simp), hres⟩
  | fetchPanic j msg hj hf => exact ⟨keep j _ (by simp), hres⟩
  | fetchErr j body err hj hf => exact ⟨keep j _ (by simp), hres⟩
  | fetchOk j body hj hf =>
    refine ⟨?_, hres⟩
    intro i b hi
    exact set_keeps_all_at
      (fun i pc => ∀ body, pc = Task.counting body →
        fetch e.httpGet (e.input.getD i []) = Outcome.returned (body, none))
      s.tasks j (Task.counting body) hpc2
      (fun b hb => by
        simp only [Task.counting.injEq] at hb
        rw [← hb]
        exact hf) i _ hi b rfl
  | logRelease j err hj hsem => exact ⟨keep j _ (by simp), hres⟩
  | emit j body hj hroom =>
    refine ⟨keep j _ (by simp), ?_⟩
    intro r hr
    simp only [List.mem_append, List.mem_singleton] at hr
    rcases hr with hr | hr
    · exact hres r hr
    · rw [hr]
      exact ⟨body, hpc j body hj, rfl⟩
  | release j hj hsem => exact ⟨keep j _ (by simp), hres⟩
  | handoffLog j k err hc hj hk =>
    refine ⟨?_, hres⟩
    intro i b hi
    exact set_keeps_all_at
      (fun i pc => ∀ body, pc = Task.counting body →
        fetch e.httpGet (e.input.getD i []) = Outcome.returned (body, none))
      _ k Task.done
      (fun i pc hi2 body hb => keep j Task.fetching (by simp) i body (hb ▸ hi2))
      (fun b hb => absurd hb (by simp)) i _ hi b rfl
  | handoffRelease j k hc hj hk =>
    refine ⟨?_, hres⟩
    intro i b hi
    exact set_keeps_all_at
      (fun i pc => ∀ body, pc = Task.counting body →
        fetch e.httpGet (e.input.getD i []) = Outcome.returned (body, none))
      _ k Task.done
      (fun i pc hi2 body hb => keep j Task.fetching (by simp) i body (hb ▸ hi2))
      (fun b hb => absurd hb (by simp)) i _ hi b rfl

theorem fetched_run (e : Env) (ms : List Move) (s : State)
    (hrun : runMoves e (State.init e) ms = some s) : Fetched e s := by
  refine runMoves_induct e (Fetched e) (fetched_step e) ms _ s ⟨?_, ?_⟩ hrun
  · intro j body hj
    exact absurd (init_tasks e j _ hj) (by simp)
  · intro r hr
    simp [State.init] at hr

/-- What `fetch` returns as error is the error of `http.Get`. -/
theorem fetch_returned_err (httpGet : GoString → GetResult) (url : GoString)
    (body : List Token) (err : Option GoError)
    (h : fetch httpGet url = Outcome.returned (body, err)) : (httpGet url).err = err := by
  unfold fetch at h
  cases hg : httpGet url with
  | mk r gerr =>
    rw [hg] at h
    cases r with
    | none => simp at h
    | some resp =>
      simp only [Outcome.returned.injEq, Prod.mk.injEq] at h
      exact h.2

/-- A key is in the store after the drain loop when it was there before or is
the URL of a result. -/
theorem exists_drain (rs : List scrapResult) :
    ∀ (c : cache) (u : GoString),
      cache.Exists (drain c rs) u = (cache.Exists c u || decide (u ∈ setCalls rs)) := by
  induction rs with
  | nil => intro c u; simp [drain, setCalls]
  | cons r rs ih =>
    intro c u
    have hd : drain c (r :: rs) = drain (cache.Set c r.url r.words) rs := rfl
    rw [hd, ih]
    by_cases hu : u = r.url
    · subst hu
      simp [cache.Exists, cache.Set, setCalls, Finmap.lookup_insert]
    · have hu2 : ¬ (r.url = u) := fun h => hu h.symm
      simp [cache.Exists, cache.Set, setCalls, Finmap.lookup_insert_of_ne _ hu, hu, hu2]

/-- A URL whose `http.Get` returns an error never gets onto `results` nor into
the store. -/
theorem url_with_error_absent (e : Env) (u : GoString) (herr : (e.httpGet u).err ≠ none)
    (ms : List Move) (s : State) (hrun : runMoves e (State.init e) ms = some s) :
    u ∉ setCalls s.results ∧ cache.Exists (drain NewInMemoryCache s.results) u = false := by
  have habs : u ∉ setCalls s.results := by
    intro hmem
    simp only [setCalls, List.mem_map] at hmem
    obtain ⟨r, hr, hru⟩ := hmem
    obtain ⟨body, hf, _⟩ := (fetched_run e ms s hrun).2 r hr
    rw [hru] at hf
    exact herr (fetch_returned_err e.httpGet u body none hf)
  refine ⟨habs, ?_⟩
  rw [exists_drain]
  simp [habs, cache.Exists, NewInMemoryCache, Finmap.lookup_empty]

/-- Claim C13 as stated fails on a URL answered with status 404 and no transport
error: `fetch` returns the body with a nil error, the goroutine counts the words
of the error page and sends the result, and `main` ends with the URL in the
store. -/
theorem not_found_page_is_stored :
    (notFound "https://www.github.com".toList).r.map (fun r => r.StatusCode) = some 404
      ∧ (notFound "https://www.github.com".toList).err = none
      ∧ fetch notFound "https://www.github.com".toList
          = Outcome.returned
              ([Token.StartTag "p".toList, Token.Text "Not Found".toList,
                Token.EndTag "p".toList], none)
      ∧ (main notFoundEnv [Move.run 0, Move.run 0, Move.run 0, Move.run 0]).map
          (fun c => cache.Exists c "https://www.github.com".toList) = some true :=
  ⟨rfl, rfl, rfl, rfl⟩

/-- Claim C13, amended: for every URL for which `http.Get` returns a non-nil
error with its response, `fetch` reports a fetch failure (it returns that
error), so the goroutine sends no result and the URL does not appear in the
store; a response without transport error is not a fetch failure whatever its
status: `fetch` returns its body with a nil error. -/
theorem fetch_failure_is_get_error (e : Env) (u : GoString) (r : Response) (err : GoError)
    (hget : e.httpGet u = { r := some r, err := some err })
    (ms : List Move) (s : State) (hrun : runMoves e (State.init e) ms = some s) :
    fetch e.httpGet u = Outcome.returned (r.Body, some err)
      ∧ u ∉ setCalls s.results
      ∧ cache.Exists (drain NewInMemoryCache s.results) u = false
      ∧ ∀ (g : GoString → GetResult) (v : GoString) (resp : Response),
          g v = { r := some resp, err := none } →
            fetch g v = Outcome.returned (resp.Body, none) := by
  have herr : (e.httpGet u).err ≠ none := by
    rw [hget]
    simp
  obtain ⟨h1, h2⟩ := url_with_error_absent e u herr ms s hrun
  refine ⟨?_, h1, h2, ?_⟩
  · unfold fetch
    rw [hget]
  · intro g v resp hg
    unfold fetch
    rw [hg]

/-- Claim C13, amended, on a URL that redirects for ever: `http.Get` returns the
last response and an error, the goroutine logs it and returns. -/
theorem fetch_failure_is_get_error_witness :
    redirectEnv.httpGet "https://www.github.com".toList
        = { r := some { Body := [], StatusCode := 302 },
            err := some "Get: stopped after 10 redirects".toList }
      ∧ runMoves redirectEnv (State.init redirectEnv) [Move.run 0, Move.run 0, Move.run 0]
          = some redirectDone
      ∧ (fetch redirectEnv.httpGet "https://www.github.com".toList
            = Outcome.returned
                (({ Body := [], StatusCode := 302 } : Response).Body,
                  some "Get: stopped after 10 redirects".toList)
        ∧ "https://www.github.com".toList ∉ setCalls redirectDone.results
        ∧ cache.Exists (drain NewInMemoryCache redirectDone.results)
            "https://www.github.com".toList = false
        ∧ ∀ (g : GoString → GetResult) (v : GoString) (resp : Response),
            g v = { r := some resp, err := none } →
              fetch g v = Outcome.returned (resp.Body, none)) :=
  ⟨rfl, rfl,
    fetch_failure_is_get_error redirectEnv "https://www.github.com".toList
      { Body := [], StatusCode := 302 } "Get: stopped after 10 redirects".toList rfl
      [Move.run 0, Move.run 0, Move.run 0] redirectDone rfl⟩

/-! ## Theorems: the unit of a goroutine that fails to fetch -/

/-- Along every schedule a goroutine sends on `sem` at most once and receives
no more often than it has sent; one that has returned has sent once and
received once, one that ended by a panic has sent once and not received; the
buffer of `sem` holds one unit per goroutine that has sent and not received. -/
theorem sends_and_receives (e : Env) (ms : List Move) (s : State)
    (hrun : runMoves e (State.init e) ms = some s) (j : Nat) :
    sendCount e j (State.init e) ms ≤ 1
      ∧ receiveCount e j (State.init e) ms ≤ sendCount e j (State.init e) ms
      ∧ (s.tasks[j]? = some Task.done →
          sendCount e j (State.init e) ms = 1 ∧ receiveCount e j (State.init e) ms = 1)
      ∧ (s.tasks[j]? = some Task.crashed →
          sendCount e j (State.init e) ms = 1 ∧ receiveCount e j (State.init e) ms = 0)
      ∧ s.sem = s.tasks.countP Task.holds
      ∧ ((∀ t ∈ s.tasks, t = Task.done) → s.sem = 0) := by
  obtain ⟨h1, h2⟩ := runMoves_counts e j ms _ s hrun
  have hinit : hasSent ((State.init e).tasks[j]?) = 0
      ∧ hasReceived ((State.init e).tasks[j]?) = 0 := by
    cases hj : (State.init e).tasks[j]? with
    | none => simp [hasSent, hasReceived]
    | some pc =>
      rw [init_tasks e j pc hj]
      simp [hasSent, hasReceived]
  rw [hinit.1, Nat.zero_add] at h1
  rw [hinit.2, Nat.zero_add] at h2
  have hb := budget_run e ms s hrun
  have hle := hasReceived_le_hasSent (s.tasks[j]?)
  have hzero : (∀ t ∈ s.tasks, t = Task.done) → s.sem = 0 := by
    intro hall
    rw [hb.1, List.countP_eq_zero]
    intro t ht
    rw [hall t ht]
    simp [Task.holds]
  refine ⟨by omega, by omega, ?_, ?_, hb.1, hzero⟩
  · intro hd
    rw [h1, h2, hd]
    simp [hasSent, hasReceived]
  · intro hd
    rw [h1, h2, hd]
    simp [hasSent, hasReceived]

/-- Claim C14 fails on the exit of a goroutine whose `http.Get` gives no
response: `fetch` panics after the send on `sem` and the receive `<-sem` is
never run. In the crawl of the source's two URLs with the network down, once
both goroutines have acquired and fetched, each has sent once and received
never, all goroutines have ended, `wg.Wait()` returns, and `sem` still holds two
units. -/
theorem panic_leaves_unit_in_sem :
    runMoves offlineEnv (State.init offlineEnv) bothFetch = some offlineAllCrashed
      ∧ sendCount offlineEnv 0 (State.init offlineEnv) bothFetch = 1
      ∧ receiveCount offlineEnv 0 (State.init offlineEnv) bothFetch = 0
      ∧ sendCount offlineEnv 1 (State.init offlineEnv) bothFetch = 1
      ∧ receiveCount offlineEnv 1 (State.init offlineEnv) bothFetch = 0
      ∧ offlineAllCrashed.tasks.countP Task.pending = 0
      ∧ offlineAllCrashed.wg = 0
      ∧ (main offlineEnv bothFetch).isSome = true
      ∧ offlineAllCrashed.sem = 2 :=
  ⟨rfl, rfl, rfl, rfl, rfl, rfl, rfl, rfl, rfl⟩

/-! ## Theorems: the store after the drain loop -/

theorem settledAt_mono (e : Env) (results more : List scrapResult) (j : Nat) (pc : Task)
    (h : SettledAt e results j pc) : SettledAt e (results ++ more) j pc := by
  cases pc with
  | releasing =>
    simp only [SettledAt, setCalls, List.map_append, List.mem_append] at h ⊢
    exact Or.inl h
  | done =>
    simp only [SettledAt, setCalls, List.map_append, List.mem_append] at h ⊢
    rcases h with h | h
    · exact Or.inl (Or.inl h)
    · exact Or.inr h
  | _ => exact h

theorem settled_step (e : Env) (s s2 : State) (hs : Settled e s) (hstep : Step e s s2) :
    Settled e s2 := by
  cases hstep with
  | acquire j hj hsem =>
    exact set_keeps_all_at (SettledAt e s.results) s.tasks j _ hs trivial
  | fetchPanic j msg hj hf =>
    refine set_keeps_all_at (SettledAt e s.results) s.tasks j _ hs ?_
    show succeeded e (e.input.getD j []) = false
    unfold succeeded
    rw [hf]
  | fetchErr j body err hj hf =>
    refine set_keeps_all_at (SettledAt e s.results) s.tasks j _ hs ?_
    show succeeded e (e.input.getD j []) = false
    unfold succeeded
    rw [hf]
  | fetchOk j body hj hf =>
    exact set_keeps_all_at (SettledAt e s.results) s.tasks j _ hs trivial
  | logRelease j err hj hsem =>
    exact set_keeps_all_at (SettledAt e s.results) s.tasks j _ hs (Or.inr (hs j _ hj))
  | emit j body hj hroom =>
    refine set_keeps_all_at (SettledAt e _) s.tasks j _
      (fun i pc hi => settledAt_mono e s.results _ i pc (hs i pc hi)) ?_
    simp [SettledAt, setCalls]
  | release j hj hsem =>
    exact set_keeps_all_at (SettledAt e s.results) s.tasks j _ hs (Or.inl (hs j _ hj))
  | handoffLog j k err hc hj hk =>
    exact set_keeps_all_at (SettledAt e s.results) _ k _
      (set_keeps_all_at (SettledAt e s.results) s.tasks j _ hs trivial)
      (Or.inr (hs k _ hk))
  | handoffRelease j k hc hj hk =>
    exact set_keeps_all_at (SettledAt e s.results) _ k _
      (set_keeps_all_at (SettledAt e s.results) s.tasks j _ hs trivial)
      (Or.inl (hs k _ hk))

theorem settled_run (e : Env) (ms : List Move) (s : State)
    (hrun : runMoves e (State.init e) ms = some s) : Settled e s := by
  refine runMoves_induct e (Settled e) (settled_step e) ms _ s ?_ hrun
  intro j pc hj
  rw [init_tasks e j pc hj]
  trivial

theorem emitted_run (e : Env) (ms : List Move) (s : State)
    (hrun : runMoves e (State.init e) ms = some s) : Emitted e s :=
  runMoves_induct e (Emitted e) (emitted_step e) ms _ s (emitted_init e) hrun

/-- A URL on `results` is a URL of the input whose fetch succeeded. -/
theorem input_of_mem_setCalls (e : Env) (ms : List Move) (s : State)
    (hrun : runMoves e (State.init e) ms = some s) (u : GoString)
    (hu : u ∈ setCalls s.results) : u ∈ e.input ∧ succeeded e u = true := by
  constructor
  · obtain ⟨hlen, js, _, hpc, hres⟩ := emitted_run e ms s hrun
    rw [hres, List.mem_map] at hu
    obtain ⟨j, hj, rfl⟩ := hu
    have hlt : j < e.input.length := by
      rw [← hlen]
      rcases hpc j hj with h | h <;> exact (List.getElem?_eq_some_iff.mp h).1
    simp only [List.getD_eq_getElem?_getD, List.getElem?_eq_getElem hlt, Option.getD_some]
    exact List.getElem_mem hlt
  · simp only [setCalls, List.mem_map] at hu
    obtain ⟨r, hr, rfl⟩ := hu
    obtain ⟨body, hf, _⟩ := (fetched_run e ms s hrun).2 r hr
    simp [succeeded, hf]

/-- Once the counter of the wait group is zero, every URL of the input whose
fetch succeeded is on `results`. -/
theorem mem_setCalls_of_wait (e : Env) (ms : List Move) (s : State)
    (hrun : runMoves e (State.init e) ms = some s) (hwait : s.wg = 0) (u : GoString)
    (hin : u ∈ e.input) (hok : succeeded e u = true) : u ∈ setCalls s.results := by
  obtain ⟨j, hlt, hju⟩ := List.getElem_of_mem hin
  have hlen := (emitted_run e ms s hrun).1
  have hlt2 : j < s.tasks.length := by rw [hlen]; exact hlt
  have hj : s.tasks[j]? = some s.tasks[j] := List.getElem?_eq_getElem hlt2
  have hset := settled_run e ms s hrun j _ hj
  have hgetD : e.input.getD j [] = u := by
    simp only [List.getD_eq_getElem?_getD, List.getElem?_eq_getElem hlt, Option.getD_some]
    exact hju
  have h0 : s.tasks.countP Task.pending = 0 := by
    rw [← (budget_run e ms s hrun).2.2.1]
    exact hwait
  have hp : ¬ (Task.pending s.tasks[j] = true) :=
    (List.countP_eq_zero.mp h0) _ (List.getElem_mem hlt2)
  generalize s.tasks[j] = pc at hset hp
  cases pc with
  | crashed =>
    simp only [SettledAt, hgetD] at hset
    rw [hset] at hok
    exact absurd hok (by simp)
  | done =>
    simp only [SettledAt, hgetD] at hset
    rcases hset with h | h
    · exact h
    · rw [h] at hok
      exact absurd hok (by simp)
  | _ => simp [Task.pending] at hp

theorem lookup_drain_of_not_mem (rs : List scrapResult) :
    ∀ (c : cache) (u : GoString), u ∉ setCalls rs → (drain c rs).lookup u = c.lookup u := by
  induction rs with
  | nil => intro c u _; rfl
  | cons r rs ih =>
    intro c u hu
    have hd : drain c (r :: rs) = drain (cache.Set c r.url r.words) rs := rfl
    simp only [setCalls, List.map_cons, List.mem_cons, not_or] at hu
    rw [hd, ih _ u hu.2]
    exact Finmap.lookup_insert_of_ne c hu.1

/-- With pairwise distinct URLs on `results`, the drain loop leaves under the
URL of a result the words of that result. -/
theorem lookup_drain_of_mem (rs : List scrapResult) :
    ∀ (c : cache) (r : scrapResult), (setCalls rs).Nodup → r ∈ rs →
      (drain c rs).lookup r.url = some r.words := by
  induction rs with
  | nil => intro c r _ hr; simp at hr
  | cons r0 rs ih =>
    intro c r hnd hr
    have hd : drain c (r0 :: rs) = drain (cache.Set c r0.url r0.words) rs := rfl
    simp only [setCalls, List.map_cons, List.nodup_cons] at hnd
    rw [hd]
    rcases List.mem_cons.mp hr with h | h
    · subst h
      rw [lookup_drain_of_not_mem rs _ r.url hnd.1]
      exact Finmap.lookup_insert c
    · exact ih _ r hnd.2 h

theorem keys_drain (rs : List scrapResult) :
    ∀ (c : cache), (drain c rs).keys = c.keys ∪ (setCalls rs).toFinset := by
  induction rs with
  | nil => intro c; simp [drain, setCalls]
  | cons r rs ih =>
    intro c
    have hd : drain c (r :: rs) = drain (cache.Set c r.url r.words) rs := rfl
    rw [hd, ih]
    ext k
    simp only [cache.Set, setCalls, List.map_cons, List.toFinset_cons, Finset.mem_union,
      Finmap.mem_keys, Finmap.mem_insert, Finset.mem_insert]
    tauto

/-- The moves still to make go down with every move. -/
theorem sum_rank_set :
    ∀ (l : List Task) (j : Nat) (old new : Task), l[j]? = some old →
      ((l.set j new).map Task.rank).sum + old.rank = (l.map Task.rank).sum + new.rank := by
  intro l
  induction l with
  | nil => intro j old new h; simp at h
  | cons a l ih =>
    intro j old new h
    cases j with
    | zero =>
      simp only [List.getElem?_cons_zero, Option.some.injEq] at h
      subst h
      simp only [List.set_cons_zero, List.map_cons, List.sum_cons]
      omega
    | succ j =>
      simp only [List.getElem?_cons_succ] at h
      have := ih j old new h
      simp only [List.set_cons_succ, List.map_cons, List.sum_cons]
      omega

theorem remaining_step (e : Env) (s s2 : State) (hstep : Step e s s2) :
    remaining s2 + 1 ≤ remaining s := by
  unfold remaining
  cases hstep with
  | acquire j hj hsem =>
    have := sum_rank_set s.tasks j _ Task.fetching hj
    simp only [Task.rank] at this ⊢
    omega
  | fetchPanic j msg hj hf =>
    have := sum_rank_set s.tasks j _ Task.crashed hj
    simp only [Task.rank] at this ⊢
    omega
  | fetchErr j body err hj hf =>
    have := sum_rank_set s.tasks j _ (Task.failed err) hj
    simp only [Task.rank] at this ⊢
    omega
  | fetchOk j body hj hf =>
    have := sum_rank_set s.tasks j _ (Task.counting body) hj
    simp only [Task.rank] at this ⊢
    omega
  | logRelease j err hj hsem =>
    have := sum_rank_set s.tasks j _ Task.done hj
    simp only [Task.rank] at this ⊢
    omega
  | emit j body hj hroom =>
    have := sum_rank_set s.tasks j _ Task.releasing hj
    simp only [Task.rank] at this ⊢
    omega
  | release j hj hsem =>
    have := sum_rank_set s.tasks j _ Task.done hj
    simp only [Task.rank] at this ⊢
    omega
  | handoffLog j k err hc hj hk =>
    have hjk : j ≠ k := by
      intro h
      rw [h, hk] at hj
      simp at hj
    have hk2 : (s.tasks.set j Task.fetching)[k]? = some (Task.failed err) := by
      rw [List.getElem?_set_ne hjk]
      exact hk
    have h1 := sum_rank_set s.tasks j _ Task.fetching hj
    have h2 := sum_rank_set _ k _ Task.done hk2
    simp only [Task.rank] at h1 h2 ⊢
    omega
  | handoffRelease j k hc hj hk =>
    have hjk : j ≠ k := by
      intro h
      rw [h, hk] at hj
      simp at hj
    have hk2 : (s.tasks.set j Task.fetching)[k]? = some Task.releasing := by
      rw [List.getElem?_set_ne hjk]
      exact hk
    have h1 := sum_rank_set s.tasks j _ Task.fetching hj
    have h2 := sum_rank_set _ k _ Task.done hk2
    simp only [Task.rank] at h1 h2 ⊢
    omega

theorem remaining_init (e : Env) : remaining (State.init e) = 4 * e.input.length := by
  unfold remaining State.init
  simp only
  generalize e.input = l
  induction l with
  | nil => rfl
  | cons a l ih =>
    simp only [List.map_cons, List.sum_cons, List.length_cons, Task.rank] at ih ⊢
    omega

/-- No schedule is longer than four moves per URL. -/
theorem runMoves_length (e : Env) :
    ∀ (ms : List Move) (s s2 : State), runMoves e s ms = some s2 →
      ms.length + remaining s2 ≤ remaining s := by
  intro ms
  induction ms with
  | nil =>
    intro s s2 h
    simp only [runMoves, Option.some.injEq] at h
    subst h
    simp
  | cons m ms ih =>
    intro s s2 h
    simp only [runMoves] at h
    cases hm : step e s m with
    | none => simp [hm] at h
    | some s1 =>
      simp only [hm, Option.some_bind] at h
      have h1 := remaining_step e s s1 (step_sound e s s1 m hm)
      have h2 := ih s1 s2 h
      simp only [List.length_cons]
      omega

theorem fetch_of_response (httpGet : GoString → GetResult) (u : GoString)
    (h : (httpGet u).r ≠ none) (msg : GoString) : fetch httpGet u ≠ Outcome.panicked msg := by
  unfold fetch
  cases hg : httpGet u with
  | mk r err =>
    rw [hg] at h
    cases r with
    | none => exact absurd rfl h
    | some resp => simp

/-- When every `http.Get` gives a response, no goroutine ends by a panic. -/
theorem no_crash_run (e : Env) (hresp : ∀ v ∈ e.input, (e.httpGet v).r ≠ none)
    (ms : List Move) (s : State) (hrun : runMoves e (State.init e) ms = some s) :
    ∀ t ∈ s.tasks, t ≠ Task.crashed := by
  have hinv : s.tasks.length = e.input.length ∧ ∀ t ∈ s.tasks, t ≠ Task.crashed := by
    refine runMoves_induct e
      (fun s => s.tasks.length = e.input.length ∧ ∀ t ∈ s.tasks, t ≠ Task.crashed)
      ?_ ms _ s ⟨by simp [State.init], ?_⟩ hrun
    · intro s s2 hs hstep
      obtain ⟨hlen, hnc⟩ := hs
      cases hstep with
      | acquire j hj hsem =>
        exact ⟨by simpa using hlen, ne_crashed_set _ j _ (by simp) hnc⟩
      | fetchPanic j msg hj hf =>
        have hlt : j < e.input.length := by
          rw [← hlen]
          exact (List.getElem?_eq_some_iff.mp hj).1
        have hmem : e.input.getD j [] ∈ e.input := by
          simp only [List.getD_eq_getElem?_getD, List.getElem?_eq_getElem hlt,
            Option.getD_some]
          exact List.getElem_mem hlt
        exact absurd hf (fetch_of_response e.httpGet _ (hresp _ hmem) msg)
      | fetchErr j body err hj hf =>
        exact ⟨by simpa using hlen, ne_crashed_set _ j _ (by simp) hnc⟩
      | fetchOk j body hj hf =>
        exact ⟨by simpa using hlen, ne_crashed_set _ j _ (by simp) hnc⟩
      | logRelease j err hj hsem =>
        exact ⟨by simpa using hlen, ne_crashed_set _ j _ (by simp) hnc⟩
      | emit j body hj hroom =>
        exact ⟨by simpa using hlen, ne_crashed_set _ j _ (by simp) hnc⟩
      | release j hj hsem =>
        exact ⟨by simpa using hlen, ne_crashed_set _ j _ (by simp) hnc⟩
      | handoffLog j k err hc hj hk =>
        exact ⟨by simpa using hlen,
          ne_crashed_set _ k _ (by simp) (ne_crashed_set _ j _ (by simp) hnc)⟩
      | handoffRelease j k hc hj hk =>
        exact ⟨by simpa using hlen,
          ne_crashed_set _ k _ (by simp) (ne_crashed_set _ j _ (by simp) hnc)⟩
    · intro t ht
      simp only [State.init, List.mem_map] at ht
      obtain ⟨_, _, rfl⟩ := ht
      simp
  exact hinv.2

/-- A goroutine about to send its result finds room on `results`. -/
theorem results_room (e : Env) (s : State) (hs : Emitted e s) (j : Nat) (body : List Token)
    (hj : s.tasks[j]? = some (Task.counting body)) : s.results.length < e.input.length := by
  obtain ⟨hlen, js, hnd, hpc, hres⟩ := hs
  have hjlt : j < s.tasks.length := (List.getElem?_eq_some_iff.mp hj).1
  have hrl : s.results.length = js.length := by
    have := congrArg List.length hres
    simpa [setCalls] using this
  have hsub : js.toFinset ⊆ (Finset.range s.tasks.length).erase j := by
    intro i hi
    rw [List.mem_toFinset] at hi
    rw [Finset.mem_erase, Finset.mem_range]
    constructor
    · intro hij
      subst hij
      rcases hpc i hi with h | h <;> rw [hj] at h <;> simp at h
    · rcases hpc i hi with h | h <;> exact (List.getElem?_eq_some_iff.mp h).1
  have hcard := Finset.card_le_card hsub
  rw [List.toFinset_card_of_nodup hnd,
    Finset.card_erase_of_mem (Finset.mem_range.mpr hjlt), Finset.card_range] at hcard
  omega

/-- A goroutine that holds a unit and has not ended can make its next move. -/
theorem holder_moves (e : Env) (s : State) (hb : Budget e s) (hem : Emitted e s)
    (j : Nat) (t : Task) (hj : s.tasks[j]? = some t) (hh : t.holds = true)
    (hnc : t ≠ Task.crashed) : (step e s (Move.run j)).isSome = true := by
  have hsem : 0 < s.sem := by
    rw [hb.1, List.countP_pos_iff]
    exact ⟨t, List.getElem?_mem hj, hh⟩
  cases t with
  | acquire => simp [Task.holds] at hh
  | done => simp [Task.holds] at hh
  | crashed => exact absurd rfl hnc
  | fetching =>
    simp only [step, hj]
    cases hf : fetch e.httpGet (e.input.getD j []) with
    | panicked msg => simp
    | returned p =>
      obtain ⟨body, err⟩ := p
      cases err <;> simp
  | failed err => simp [step, hj, hsem]
  | counting body => simp [step, hj, results_room e s hem j body hj]
  | releasing => simp [step, hj, hsem]

/-- With a capacity of at least 1 and every `http.Get` giving a response, some
goroutine can move as long as `main` waits. -/
theorem can_move_of_waiting (e : Env) (hcap : 1 ≤ semCap e)
    (hresp : ∀ v ∈ e.input, (e.httpGet v).r ≠ none) (ms : List Move) (s : State)
    (hrun : runMoves e (State.init e) ms = some s) (hw : s.wg ≠ 0) :
    ∃ m, (step e s m).isSome = true := by
  have hb := budget_run e ms s hrun
  have hem := emitted_run e ms s hrun
  have hnc := no_crash_run e hresp ms s hrun
  have hpos : 0 < s.tasks.countP Task.pending := by
    rw [← hb.2.2.1]
    omega
  obtain ⟨t, ht, hpend⟩ := List.countP_pos_iff.mp hpos
  obtain ⟨j, hlt, hjt⟩ := List.getElem_of_mem ht
  have hj : s.tasks[j]? = some t := by
    rw [List.getElem?_eq_getElem hlt, hjt]
  by_cases hh : t.holds = true
  · exact ⟨Move.run j, holder_moves e s hb hem j t hj hh (hnc t ht)⟩
  · have hacq : t = Task.acquire := by
      cases t <;> simp [Task.holds, Task.pending] at hh hpend ⊢
    subst hacq
    by_cases hlt2 : s.sem < semCap e
    · exact ⟨Move.run j, by simp [step, hj, hlt2]⟩
    · have hpos2 : 0 < s.tasks.countP Task.holds := by
        rw [← hb.1]
        omega
      obtain ⟨t2, ht2, hh2⟩ := List.countP_pos_iff.mp hpos2
      obtain ⟨j2, hlt3, hjt2⟩ := List.getElem_of_mem ht2
      have hj2 : s.tasks[j2]? = some t2 := by
        rw [List.getElem?_eq_getElem hlt3, hjt2]
      exact ⟨Move.run j2, holder_moves e s hb hem j2 t2 hj2 hh2 (hnc t2 ht2)⟩

/-- Claim C5: for every list of pairwise distinct URLs (the empty list too) and
every schedule of the goroutines, once `wg.Wait()` has returned the store after
the drain loop, started empty, has an entry for a URL `u` if and only if `u` is
a URL of the input whose fetch succeeded, and that entry is `countWords` of the
body fetched; the number of entries is the number of URLs whose fetch succeeded,
no URL gives the empty store and a URL whose fetch failed is absent. No schedule
is longer than four moves per URL, and with a capacity of at least 1 and every
`http.Get` giving a response some goroutine can move as long as `main` waits. -/
theorem store_after_drain (e : Env) (hnd : e.input.Nodup) (ms : List Move) (s : State)
    (hrun : runMoves e (State.init e) ms = some s) (u : GoString) :
    (s.wg = 0 →
        main e ms = some (drain NewInMemoryCache s.results)
        ∧ (cache.Exists (drain NewInMemoryCache s.results) u = true
            ↔ u ∈ e.input ∧ succeeded e u = true)
        ∧ (∀ body, u ∈ e.input → fetch e.httpGet u = Outcome.returned (body, none) →
            cache.Get (drain NewInMemoryCache s.results) u
              = (some (countWords e.unicode body), true))
        ∧ (drain NewInMemoryCache s.results).keys.card
            = (e.input.filter (succeeded e)).length
        ∧ (e.input = [] → drain NewInMemoryCache s.results = ∅))
      ∧ ms.length ≤ 4 * e.input.length
      ∧ (1 ≤ semCap e → (∀ v ∈ e.input, (e.httpGet v).r ≠ none) → s.wg ≠ 0 →
          ∃ m, (step e s m).isSome = true) := by
  have hmem : s.wg = 0 → ∀ v, v ∈ setCalls s.results ↔ v ∈ e.input ∧ succeeded e v = true :=
    fun hwait v => ⟨input_of_mem_setCalls e ms s hrun v,
      fun h => mem_setCalls_of_wait e ms s hrun hwait v h.1 h.2⟩
  have hnodup : (setCalls s.results).Nodup := setCalls_nodup e hnd s (emitted_run e ms s hrun)
  refine ⟨fun hwait => ⟨?_, ?_, ?_, ?_, ?_⟩, ?_, ?_⟩
  · simp [main, hrun, afterWait, hwait]
  · rw [exists_drain, ← hmem hwait u]
    simp [cache.Exists, NewInMemoryCache, Finmap.lookup_empty]
  · intro body hin hf
    have hok : succeeded e u = true := by simp [succeeded, hf]
    have hu := (hmem hwait u).mpr ⟨hin, hok⟩
    simp only [setCalls, List.mem_map] at hu
    obtain ⟨r, hr, hru⟩ := hu
    obtain ⟨body2, hf2, hw2⟩ := (fetched_run e ms s hrun).2 r hr
    rw [hru, hf] at hf2
    simp only [Outcome.returned.injEq, Prod.mk.injEq, and_true] at hf2
    have hl := lookup_drain_of_mem s.results NewInMemoryCache r hnodup hr
    rw [hru, hw2, ← hf2] at hl
    simp [cache.Get, hl]
  · rw [keys_drain]
    have hperm : (setCalls s.results).Perm (e.input.filter (succeeded e)) := by
      rw [List.perm_ext_iff_of_nodup hnodup (hnd.filter _)]
      intro v
      rw [hmem hwait v, List.mem_filter]
    have hk : (NewInMemoryCache : cache).keys = ∅ := Finmap.keys_empty
    rw [hk, Finset.empty_union, List.toFinset_card_of_nodup hnodup, hperm.length_eq]
  · intro hempty
    apply Finmap.ext_lookup
    intro k
    have hk : k ∉ setCalls s.results := by
      intro h
      have := (input_of_mem_setCalls e ms s hrun k h).1
      rw [hempty] at this
      simp at this
    rw [lookup_drain_of_not_mem s.results _ k hk]
    simp [NewInMemoryCache, Finmap.lookup_empty]
  · have h := runMoves_length e ms _ s hrun
    rw [remaining_init] at h
    omega
  · intro hcap hresp hw
    exact can_move_of_waiting e hcap hresp ms s hrun hw

/-- Claim C5 on the source's two URLs, both fetched, both goroutines run to
their end. -/
theorem store_after_drain_witness :
    onlineEnv.input.Nodup
      ∧ runMoves onlineEnv (State.init onlineEnv) inTurn = some onlineDone
      ∧ onlineDone.wg = 0
      ∧ main onlineEnv inTurn = some (drain NewInMemoryCache onlineDone.results)
      ∧ (cache.Exists (drain NewInMemoryCache onlineDone.results)
            "https://www.github.com".toList = true
          ↔ "https://www.github.com".toList ∈ onlineEnv.input
            ∧ succeeded onlineEnv "https://www.github.com".toList = true)
      ∧ (drain NewInMemoryCache onlineDone.results).keys.card
          = (onlineEnv.input.filter (succeeded onlineEnv)).length
      ∧ inTurn.length ≤ 4 * onlineEnv.input.length :=
  ⟨by decide, rfl, rfl,
    ((store_after_drain onlineEnv (by decide) inTurn onlineDone rfl
      "https://www.github.com".toList).1 rfl).1,
    ((store_after_drain onlineEnv (by decide) inTurn onlineDone rfl
      "https://www.github.com".toList).1 rfl).2.1,
    ((store_after_drain onlineEnv (by decide) inTurn onlineDone rfl
      "https://www.github.com".toList).1 rfl).2.2.2.1,
    (store_after_drain onlineEnv (by decide) inTurn onlineDone rfl
      "https://www.github.com".toList).2.1⟩

/-- One URL whose `http.Get` gives no response: when the deferred `wg.Done()` of
the panicking goroutine has let `wg.Wait()` return, the drain loop leaves the
store empty. -/
theorem failed_url_store_empty :
    runMoves oneOfflineEnv (State.init oneOfflineEnv) [Move.run 0, Move.run 0]
        = some { tasks := [Task.crashed], sem := 1, results := [], wg := 0, log := [],
                 panicked := true }
      ∧ main oneOfflineEnv [Move.run 0, Move.run 0] = some ∅
      ∧ main { oneOfflineEnv with input := [] } [] = some ∅ :=
  ⟨rfl, rfl, rfl⟩

end Hmwrk
